import Mathlib

/-!
# A verification development for the `bvh` crate

This file gives a shallow embedding of `src/lib.rs` of the `bvh` repository:
a parser and serializer for the BVH (Biovision Hierarchy) motion-capture text
format.

Modelling conventions:

* Rust `f64` values are modelled by exact decimal numbers (`Dec`, a mantissa
  together with a power-of-ten exponent).  The specification only guarantees
  value equivalence of floats across a round trip (Rust's default float
  rendering is shortest-round-trip, so display followed by parse is the
  identity on values); the decimal model makes that exact.
* Rust panics (`unwrap`, `unreachable!`, division/remainder by zero) are
  modelled by `Option.none`, respectively an explicit `crash` outcome.
* `u32` arithmetic is modelled by explicit reduction modulo `2 ^ 32`:
  `Joint::total_channels` truncates `channels.len() as u32` and adds with
  release-profile wrapping semantics, and `serialize_motion` truncates the
  loop index with `(index as u32)` before the row-boundary test.
* The pest grammar file `bvh.pest` is not part of the sources; it is an
  external collaborator.  The tokenizer below is modelled from the spec's
  description of the grammar (rule vocabulary, wire format, channel-count
  agreement) and produces the rule-tagged token forest the tree builder walks.
* Recursive functions carry an explicit fuel parameter bounding the recursion
  depth, chosen large enough that it is never exhausted on actual inputs;
  this keeps every definition computable by kernel reduction.
-/

namespace BvhSpec

/-! ## Characters and words -/

/-- Whitespace characters separating BVH tokens. -/
def isWsChar (c : Char) : Bool :=
  c = ' ' || c = '\n' || c = '\t' || c = '\r'

/-- Decimal digit characters. -/
def isDigitCh (c : Char) : Bool := 48 ≤ c.toNat && c.toNat ≤ 57

/-- Identifier characters: ASCII letters, digits and underscore. -/
def isIdentCh (c : Char) : Bool :=
  (65 ≤ c.toNat && c.toNat ≤ 90) || (97 ≤ c.toNat && c.toNat ≤ 122) ||
    (48 ≤ c.toNat && c.toNat ≤ 57) || c.toNat == 95

/-- A token word: a maximal run of non-whitespace characters. -/
abbrev W := List Char

/-- Split a character list into whitespace-separated words.
`cur` accumulates the (partial) current word. -/
def splitWsGo (cur : W) : List Char → List W
  | [] => if cur = [] then [] else [cur]
  | c :: cs =>
    if isWsChar c then
      if cur = [] then splitWsGo [] cs else cur :: splitWsGo [] cs
    else
      splitWsGo (cur ++ [c]) cs

/-- The whitespace-separated words of a character list. -/
def splitWs (l : List Char) : List W := splitWsGo [] l

/-! ## Decimal numerals -/

/-- Decimal digits of `n`, most significant first, accumulated onto `acc`.
Fuel-bounded so that the kernel can evaluate it; `fuel = n + 1` suffices. -/
def natToCharsGo : Nat → Nat → List Char → List Char
  | 0, _, acc => acc
  | fuel + 1, n, acc =>
    let d := Char.ofNat (48 + n % 10)
    if n < 10 then d :: acc else natToCharsGo fuel (n / 10) (d :: acc)

/-- Decimal rendering of a natural number (the model of Rust's `Display`
for unsigned integers). -/
def natToChars (n : Nat) : List Char := natToCharsGo (n + 1) n []

/-- Numeric value of a digit string (the model of Rust's `str::parse` for
unsigned integers, on all-digit input). -/
def charsToNatGo (acc : Nat) : List Char → Nat
  | [] => acc
  | c :: cs => charsToNatGo (acc * 10 + (c.toNat - 48)) cs

/-- Value of a decimal digit word. -/
def natOfChars (l : List Char) : Nat := charsToNatGo 0 l

/-! ## The decimal scalar type modelling `f64` -/

/-- Exact decimal scalar standing in for `f64`: the value `mant / 10 ^ exp`.
Parsing a decimal literal and re-rendering it are exact inverses on this
type, which models the value-exactness of Rust's shortest-round-trip float
formatting. -/
structure Dec where
  mant : Int
  exp : Nat
deriving DecidableEq, Repr

/-- Digit string of the absolute mantissa, left-padded with zeros so that a
decimal point can be placed `exp` digits from the right. -/
def decDigits (d : Dec) : List Char :=
  let ds := natToChars d.mant.natAbs
  List.replicate (d.exp + 1 - ds.length) '0' ++ ds

/-- Unsigned part of the decimal rendering. -/
def decCore (d : Dec) : List Char :=
  if d.exp = 0 then decDigits d
  else
    (decDigits d).take ((decDigits d).length - d.exp) ++
      '.' :: (decDigits d).drop ((decDigits d).length - d.exp)

/-- Decimal rendering of a `Dec` scalar (the model of Rust's `Display` for
`f64`). -/
def decChars (d : Dec) : List Char :=
  if d.mant < 0 then '-' :: decCore d else decCore d

/-- String form of `decChars`. -/
def fmtDec (d : Dec) : String := ⟨decChars d⟩

/-- String form of `natToChars`. -/
def fmtNat (n : Nat) : String := ⟨natToChars n⟩

/-- Parse the unsigned part of a decimal word: an integer part and an
optional fractional part, as a mantissa and a fractional length. -/
def decOfCore (w1 : List Char) : Option (Nat × Nat) :=
  let ip := w1.takeWhile isDigitCh
  let rest := w1.dropWhile isDigitCh
  if ip = [] then none
  else
    match rest with
    | [] => some (natOfChars ip, 0)
    | '.' :: fr =>
      if fr ≠ [] ∧ fr.all isDigitCh then
        some (natOfChars (ip ++ fr), fr.length)
      else none
    | _ => none

/-- Parse a decimal word: optional minus sign, an integer part, and an
optional fractional part (the model of Rust's `str::parse::<f64>` restricted
to the grammar's float tokens; `none` models a conversion failure). -/
def decOfChars (w : List Char) : Option Dec :=
  if w.head? = some '-' then
    (decOfCore w.tail).map (fun p => ⟨-(p.1 : Int), p.2⟩)
  else
    (decOfCore w).map (fun p => ⟨(p.1 : Int), p.2⟩)

/-- Model of Rust's `str::parse::<u32>`: all-digit word whose value fits in
32 bits; `none` models a conversion failure (and hence, via `unwrap`, a
panic in the original). -/
def parseU32 (s : String) : Option Nat :=
  if s.data ≠ [] ∧ s.data.all isDigitCh ∧ natOfChars s.data < 2 ^ 32 then
    some (natOfChars s.data)
  else none

/-! ## The data model (`lib.rs` lines 17–78) -/

/-- `Channel` (lib.rs lines 52–60). -/
inductive Channel
  | XPosition | YPosition | ZPosition | XRotation | YRotation | ZRotation
deriving DecidableEq, Repr

/-- `Offset` (lib.rs lines 45–50), with `f64` modelled by `Dec`. -/
structure Offset where
  x : Dec
  y : Dec
  z : Dec
deriving DecidableEq, Repr

/-- `EndSite` (lib.rs lines 68–71). -/
structure EndSite where
  offset : Offset
deriving DecidableEq, Repr

mutual
/-- `Joint` (lib.rs lines 28–34). -/
inductive Joint where
  | mk (name : String) (offset : Offset) (channels : List Channel)
      (children : JointChildren)
/-- `JointChildren` (lib.rs lines 62–66). -/
inductive JointChildren where
  | Joints (js : List Joint)
  | EndSite (e : EndSite)
end

def Joint.name : Joint → String
  | .mk n _ _ _ => n

def Joint.offset : Joint → Offset
  | .mk _ o _ _ => o

def Joint.channels : Joint → List Channel
  | .mk _ _ cs _ => cs

def Joint.children : Joint → JointChildren
  | .mk _ _ _ ch => ch

mutual
/-- `Joint::total_channels` (lib.rs lines 36–43): own channel count plus the
sum over nested joints; `EndSite` contributes zero.  The computation is in
`u32`: `channels.len() as u32` truncates silently, and the additions wrap
(release-profile semantics), so every step is reduced modulo `2 ^ 32`. -/
def Joint.total_channels : Joint → Nat
  | .mk _ _ cs ch =>
    (cs.length % 2 ^ 32 + JointChildren.total_channels ch) % 2 ^ 32
def JointChildren.total_channels : JointChildren → Nat
  | .Joints js => jointsTotalChannels js
  | .EndSite _ => 0
def jointsTotalChannels : List Joint → Nat
  | [] => 0
  | j :: js => (j.total_channels + jointsTotalChannels js) % 2 ^ 32
end

/-- `Motion` (lib.rs lines 73–78): `num_frames` is a `u32` in the source,
modelled as a `Nat` (well-formed values carry `num_frames < 2 ^ 32`). -/
structure Motion where
  num_frames : Nat
  frame_time : Dec
  frame_data : List Dec

/-- `Hierarchy` (lib.rs lines 23–26). -/
structure Hierarchy where
  root : Joint

/-- `Bvh` (lib.rs lines 17–21). -/
structure Bvh where
  hierarchy : Hierarchy
  motion : Motion

mutual
/-- Depth-first pre-order traversal of a joint tree (specification side,
for the channel-count identity). -/
def Joint.dfs : Joint → List Joint
  | .mk n o cs ch => .mk n o cs ch :: JointChildren.dfs ch
def JointChildren.dfs : JointChildren → List Joint
  | .Joints js => jointsDfs js
  | .EndSite _ => []
def jointsDfs : List Joint → List Joint
  | [] => []
  | j :: js => j.dfs ++ jointsDfs js
end

/-! ## The token forest -/

/-- The grammar's rule vocabulary (spec §2; mirrors the `Rule` enum that
`pest` derives from `bvh.pest`). -/
inductive Rule
  | bvh | hierarchy | root_joint | joint | joint_body | offset | channels
  | channel | end_site | motion | frames | integer | float | identifier
deriving DecidableEq, Repr

/-- One matched rule span (the model of a pest `Pair`): its rule, matched
text (used by the builder only on leaf tokens), and nested pairs. -/
inductive Pair where
  | mk (rule : Rule) (str : String) (inner : List Pair)

def Pair.rule : Pair → Rule
  | .mk r _ _ => r

def Pair.str : Pair → String
  | .mk _ s _ => s

def Pair.inner : Pair → List Pair
  | .mk _ _ i => i

/-- Model of `Iterator::find` on a pest `Pairs` iterator with a rule-equality
predicate: the iterator is consumed up to and including the found pair, so
the remaining pairs after it are returned as well.  `none` is an exhausted
iterator (whose `unwrap` panics in the original). -/
def findRule (r : Rule) : List Pair → Option (Pair × List Pair)
  | [] => none
  | p :: ps => if p.rule = r then some (p, ps) else findRule r ps

mutual
/-- Number of pairs in a forest (used as a recursion bound for the builder). -/
def Pair.weight : Pair → Nat
  | .mk _ _ i => 1 + pairsWeight i
def pairsWeight : List Pair → Nat
  | [] => 0
  | p :: ps => p.weight + pairsWeight ps
end

/-! ## Tokenizer

Modelled from the spec: the grammar file `bvh.pest` is not among the
sources (spec §1 treats the token-grammar as an external collaborator), so
the tokenizer below realises the spec's contract for it (§4.1, §6, §8):
whitespace-separated tokens, keyword skeleton `HIERARCHY / ROOT … / MOTION`,
braces on their own, `OFFSET` with three floats, `CHANNELS` with a count
that must agree with the number of listed channel names, nested `JOINT`
blocks or one `End Site` block, and a `MOTION` section of `Frames:`,
`Frame Time:` and the remaining float tokens.  It produces the rule-tagged
token forest consumed by the tree builder. -/

/-- An all-digit word: the grammar's `integer` rule. -/
def intWord (w : W) : Bool := w ≠ [] && w.all isDigitCh

/-- The grammar's `float` rule: exactly the words the numeric conversion
accepts. -/
def floatWord (w : W) : Bool := (decOfChars w).isSome

/-- The grammar's `identifier` rule: a non-empty alphanumeric/underscore
word. -/
def identWord (w : W) : Bool := w ≠ [] && w.all isIdentCh

/-- `Channel` from its literal spelling: the closed six-element set
(lib.rs lines 128–135; `none` models the `unreachable!` arm). -/
def channelOfString (s : String) : Option Channel :=
  if s = "Xposition" then some .XPosition
  else if s = "Yposition" then some .YPosition
  else if s = "Zposition" then some .ZPosition
  else if s = "Xrotation" then some .XRotation
  else if s = "Yrotation" then some .YRotation
  else if s = "Zrotation" then some .ZRotation
  else none

/-- The grammar's `channel` rule: one of the six literal spellings. -/
def channelWord (w : W) : Bool := (channelOfString ⟨w⟩).isSome

/-- Consume one expected keyword token. -/
def expectTok (t : W) : List W → Except String (List W)
  | [] => .error ("expected " ++ ⟨t⟩ ++ " but input ended")
  | w :: ws => if w = t then .ok ws else .error ("expected " ++ ⟨t⟩)

/-- Consume one leaf token whose word satisfies `good`, producing a leaf
pair of rule `r` carrying the matched text. -/
def matchLeaf (r : Rule) (good : W → Bool) (what : String) :
    List W → Except String (Pair × List W)
  | [] => .error ("expected " ++ what ++ " but input ended")
  | w :: ws => if good w then .ok (.mk r ⟨w⟩ [], ws) else .error ("expected " ++ what)

def matchInteger : List W → Except String (Pair × List W) :=
  matchLeaf .integer intWord "integer"

def matchFloat : List W → Except String (Pair × List W) :=
  matchLeaf .float floatWord "float"

def matchIdent : List W → Except String (Pair × List W) :=
  matchLeaf .identifier identWord "identifier"

def matchChannel : List W → Except String (Pair × List W) :=
  matchLeaf .channel channelWord "channel"

/-- Consume exactly `n` channel-name tokens (count agreement: spec §8
requires a count mismatch to be a syntax error). -/
def matchChannelN : Nat → List W → Except String (List Pair × List W)
  | 0, ws => .ok ([], ws)
  | n + 1, ws =>
    match matchChannel ws with
    | .error e => .error e
    | .ok (p, ws) =>
      match matchChannelN n ws with
      | .error e => .error e
      | .ok (ps, ws) => .ok (p :: ps, ws)

/-- `OFFSET x y z`: the grammar's `offset` rule. -/
def matchOffsetBlock (ws : List W) : Except String (Pair × List W) :=
  match expectTok "OFFSET".data ws with
  | .error e => .error e
  | .ok ws =>
    match matchFloat ws with
    | .error e => .error e
    | .ok (f1, ws) =>
      match matchFloat ws with
      | .error e => .error e
      | .ok (f2, ws) =>
        match matchFloat ws with
        | .error e => .error e
        | .ok (f3, ws) => .ok (.mk .offset "" [f1, f2, f3], ws)

/-- `CHANNELS n name…`: the grammar's `channels` rule; exactly `n` channel
names must follow the count. -/
def matchChannelsBlock (ws : List W) : Except String (Pair × List W) :=
  match expectTok "CHANNELS".data ws with
  | .error e => .error e
  | .ok ws =>
    match matchInteger ws with
    | .error e => .error e
    | .ok (ip, ws) =>
      match matchChannelN (natOfChars ip.str.data) ws with
      | .error e => .error e
      | .ok (cs, ws) => .ok (.mk .channels "" (ip :: cs), ws)

/-- `End Site { OFFSET x y z }`: the grammar's `end_site` rule. -/
def matchEndSite (ws : List W) : Except String (Pair × List W) :=
  match expectTok "End".data ws with
  | .error e => .error e
  | .ok ws =>
    match expectTok "Site".data ws with
    | .error e => .error e
    | .ok ws =>
      match expectTok "\x7b".data ws with
      | .error e => .error e
      | .ok ws =>
        match matchOffsetBlock ws with
        | .error e => .error e
        | .ok (off, ws) =>
          match expectTok "\x7d".data ws with
          | .error e => .error e
          | .ok ws => .ok (.mk .end_site "" [off], ws)

mutual
/-- `name { OFFSET … CHANNELS … (JOINT …)+ | End Site … }`: the grammar's
`joint_body` rule.  The fuel bounds nesting depth; each recursive call
consumes at least one word first, so any fuel exceeding the word count
never runs out. -/
def matchJointBody : Nat → List W → Except String (Pair × List W)
  | 0, _ => .error "nesting too deep"
  | fuel + 1, ws =>
    match matchIdent ws with
    | .error e => .error e
    | .ok (namep, ws) =>
      match expectTok "\x7b".data ws with
      | .error e => .error e
      | .ok ws =>
        match matchOffsetBlock ws with
        | .error e => .error e
        | .ok (off, ws) =>
          match matchChannelsBlock ws with
          | .error e => .error e
          | .ok (chs, ws) =>
            match
              (if ws.head? = some "JOINT".data then matchJoints fuel ws
               else
                 match matchEndSite ws with
                 | .error e => .error e
                 | .ok (es, ws) => .ok ([es], ws)) with
            | .error e => .error e
            | .ok (children, ws) =>
              match expectTok "\x7d".data ws with
              | .error e => .error e
              | .ok ws => .ok (.mk .joint_body "" (namep :: off :: chs :: children), ws)
/-- One or more `JOINT name { … }` blocks: the grammar's `joint` rule,
iterated. -/
def matchJoints : Nat → List W → Except String (List Pair × List W)
  | 0, _ => .error "nesting too deep"
  | fuel + 1, ws =>
    match expectTok "JOINT".data ws with
    | .error e => .error e
    | .ok ws =>
      match matchJointBody fuel ws with
      | .error e => .error e
      | .ok (body, ws) =>
        if ws.head? = some "JOINT".data then
          match matchJoints fuel ws with
          | .error e => .error e
          | .ok (rest, ws) => .ok (.mk .joint "" [body] :: rest, ws)
        else .ok ([.mk .joint "" [body]], ws)
end

/-- `HIERARCHY ROOT name { … }`: the `hierarchy` and `root_joint` rules. -/
def matchHierarchy (fuel : Nat) (ws : List W) : Except String (Pair × List W) :=
  match expectTok "HIERARCHY".data ws with
  | .error e => .error e
  | .ok ws =>
    match expectTok "ROOT".data ws with
    | .error e => .error e
    | .ok ws =>
      match matchJointBody fuel ws with
      | .error e => .error e
      | .ok (body, ws) =>
        .ok (.mk .hierarchy "" [.mk .root_joint "" [body]], ws)

/-- All remaining float tokens, greedily: the motion samples. -/
def matchFloatStar : List W → List Pair × List W
  | [] => ([], [])
  | w :: ws =>
    if floatWord w then
      let (ps, rest) := matchFloatStar ws
      (.mk .float ⟨w⟩ [] :: ps, rest)
    else ([], w :: ws)

/-- `MOTION Frames: n Frame Time: t v…`: the `motion` and `frames` rules. -/
def matchMotion (ws : List W) : Except String (Pair × List W) :=
  match expectTok "MOTION".data ws with
  | .error e => .error e
  | .ok ws =>
    match expectTok "Frames:".data ws with
    | .error e => .error e
    | .ok ws =>
      match matchInteger ws with
      | .error e => .error e
      | .ok (ip, ws) =>
        match expectTok "Frame".data ws with
        | .error e => .error e
        | .ok ws =>
          match expectTok "Time:".data ws with
          | .error e => .error e
          | .ok ws =>
            match matchFloat ws with
            | .error e => .error e
            | .ok (ft, ws) =>
              let (fs, ws) := matchFloatStar ws
              .ok (.mk .motion "" [.mk .frames "" (ip :: ft :: fs)], ws)

/-- The top-level `bvh` rule: `hierarchy` then `motion`, anchored at end of
input. -/
def matchBvh (fuel : Nat) (ws : List W) : Except String (List Pair) :=
  match matchHierarchy fuel ws with
  | .error e => .error e
  | .ok (h, ws) =>
    match matchMotion ws with
    | .error e => .error e
    | .ok (m, ws) =>
      match ws with
      | [] => .ok [.mk .bvh "" [h, m]]
      | _ => .error "expected end of input"

/-- Tokenize raw text into the token forest, or fail with a syntax error
(the model of `BvhParser::parse(Rule::bvh, input)`). -/
def tokenize (s : String) : Except String (List Pair) :=
  let ws := splitWs s.data
  matchBvh (ws.length + 1) ws

/-! ## Tree builder (lib.rs lines 80–151)

The builder walks the token forest with `findRule` (the model of the
source's `find`-on-iterator pattern) and `unwrap`s every lookup: a failed
lookup or numeric conversion is a panic in the original, modelled by
`none`.  The fuel bounds recursion depth; `parse` passes the forest's pair
count plus one, which the recursion (descending strictly into sub-pairs)
can never exhaust. -/

/-- Collect an optional value out of every list element, propagating a
panic (`none`). -/
def optSequence : List (Option α) → Option (List α)
  | [] => some []
  | none :: _ => none
  | some a :: os => (optSequence os).map (a :: ·)

/-- `parse_f64` (lib.rs lines 149–151): find the next `float` token and
convert it. -/
def parse_f64 (ps : List Pair) : Option (Dec × List Pair) :=
  match findRule .float ps with
  | none => none
  | some (p, rest) =>
    match decOfChars p.str.data with
    | none => none
    | some d => some (d, rest)

/-- `parse_offset` (lib.rs lines 141–147): three floats read off the
`offset` pair's inner forest. -/
def parse_offset (ps : List Pair) : Option Offset :=
  match parse_f64 ps with
  | none => none
  | some (x, ps) =>
    match parse_f64 ps with
    | none => none
    | some (y, ps) =>
      match parse_f64 ps with
      | none => none
      | some (z, _) => some ⟨x, y, z⟩

/-- The `else` branch of lib.rs lines 115–124: no nested joints, so an
`end_site` block must be present. -/
def end_site_children (ps : List Pair) : Option JointChildren :=
  match findRule .end_site ps with
  | none => none
  | some (esp, _) =>
    match findRule .offset esp.inner with
    | none => none
    | some (op, _) =>
      match parse_offset op.inner with
      | none => none
      | some o => some (.EndSite ⟨o⟩)

/-- `parse_joint` (lib.rs lines 106–139) on a `joint_body`'s inner forest:
name, offset and channels are found in sequence; the remaining pairs are
filtered for nested `joint` pairs (each recursed into through its
`joint_body`), preserving document order; if none are present the
`end_site` branch runs.  Channel literals outside the closed set hit the
`unreachable!` arm. -/
def parse_joint : Nat → List Pair → Option Joint
  | 0, _ => none
  | fuel + 1, ps =>
    match findRule .identifier ps with
    | none => none
    | some (namePair, ps) =>
      match findRule .offset ps with
      | none => none
      | some (offsetPair, ps) =>
        match parse_offset offsetPair.inner with
        | none => none
        | some offset =>
          match findRule .channels ps with
          | none => none
          | some (channelsPair, ps) =>
            match optSequence ((ps.filter (fun p => p.rule = .joint)).map (fun p =>
                match findRule .joint_body p.inner with
                | none => none
                | some (body, _) => parse_joint fuel body.inner)) with
            | none => none
            | some joints =>
              match
                (if 0 < joints.length then some (JointChildren.Joints joints)
                 else end_site_children ps) with
              | none => none
              | some children =>
                match optSequence
                    ((channelsPair.inner.filter (fun p => p.rule = .channel)).map
                      (fun p => channelOfString p.str)) with
                | none => none
                | some channels =>
                  some (.mk namePair.str offset channels children)

/-- The forest walk of `parse` (lib.rs lines 83–103): locate `bvh`, then
`hierarchy`/`root_joint`/`joint_body` for the root, then (continuing on the
same iterator) `motion`/`frames` for the motion block. -/
def buildBvh (pairs : List Pair) : Option Bvh :=
  match findRule .bvh pairs with
  | none => none
  | some (bvhPair, _) =>
    match findRule .hierarchy bvhPair.inner with
    | none => none
    | some (hierPair, bvhRest) =>
      match findRule .root_joint hierPair.inner with
      | none => none
      | some (rootPair, _) =>
        match findRule .joint_body rootPair.inner with
        | none => none
        | some (bodyPair, _) =>
          match parse_joint (pairsWeight pairs + 1) bodyPair.inner with
          | none => none
          | some root =>
            match findRule .motion bvhRest with
            | none => none
            | some (motionPair, _) =>
              match findRule .frames motionPair.inner with
              | none => none
              | some (framesPair, _) =>
                match findRule .integer framesPair.inner with
                | none => none
                | some (intPair, fps) =>
                  match parseU32 intPair.str with
                  | none => none
                  | some nf =>
                    match parse_f64 fps with
                    | none => none
                    | some (ft, fps) =>
                      match optSequence
                          ((fps.filter (fun p => p.rule = .float)).map
                            (fun p => decOfChars p.str.data)) with
                      | none => none
                      | some fd =>
                        some ⟨⟨root⟩, ⟨nf, ft, fd⟩⟩

/-- Outcome of `parse`: success, a returned syntax error, or a crash (a
Rust panic, which never returns a value). -/
inductive PResult where
  | ok (b : Bvh)
  | syntaxErr (msg : String)
  | crash

/-- `parse` (lib.rs lines 80–104): tokenization failure is mapped onto a
returned error string; any `unwrap`/`unreachable!`/conversion failure while
walking the forest is a panic (`crash`). -/
def parse (s : String) : PResult :=
  match tokenize s with
  | .error e => .syntaxErr ("Couldn't parse BVH: " ++ e)
  | .ok forest =>
    match buildBvh forest with
    | none => .crash
    | some b => .ok b

/-! ## Serializer (lib.rs lines 153–228)

Each serializer function is modelled by the sequence of `write!` calls it
makes (one chunk per call), together with a crash flag: `serialize_motion`
computes `index % total_channels`, which panics when `total_channels = 0`
and the loop body runs (after the value has been written).  Running the
chunk sequence against a sink replays the writes in order and propagates
the sink's write error, which models `Result`'s early return. -/

/-- The write trace of a serializer call: the chunks passed to `write!`
before (if ever) it crashed. -/
structure WOut where
  chunks : List String
  crashed : Bool
deriving Repr

/-- Sequencing of write traces: after a crash nothing further runs. -/
def WOut.seq (a b : WOut) : WOut :=
  if a.crashed then a else ⟨a.chunks ++ b.chunks, b.crashed⟩

instance : Append WOut := ⟨WOut.seq⟩

/-- A single successful `write!` of `s`. -/
def wr (s : String) : WOut := ⟨[s], false⟩

/-- The empty write trace. -/
def wnil : WOut := ⟨[], false⟩

/-- `serialize_offset` (lib.rs lines 209–211): one `writeln!`. -/
def serialize_offset (o : Offset) : WOut :=
  wr ("OFFSET " ++ fmtDec o.x ++ " " ++ fmtDec o.y ++ " " ++ fmtDec o.z ++ "\n")

/-- Channel spellings used by `serialize_joint` (lib.rs lines 176–183),
without the leading space. -/
def channel_str (c : Channel) : String :=
  match c with
  | .XPosition => "Xposition"
  | .YPosition => "Yposition"
  | .ZPosition => "Zposition"
  | .XRotation => "Xrotation"
  | .YRotation => "Yrotation"
  | .ZRotation => "Zrotation"

/-- The per-channel writes of lib.rs lines 175–184. -/
def channelsOut : List Channel → WOut
  | [] => wnil
  | c :: cs => wr (" " ++ channel_str c) ++ channelsOut cs

mutual
/-- `serialize_joint` (lib.rs lines 168–207). -/
def serialize_joint : Joint → WOut
  | .mk name offset channels children =>
    wr (name ++ "\n") ++ wr "\x7b\n" ++ serialize_offset offset ++
    wr ("CHANNELS " ++ fmtNat channels.length) ++ channelsOut channels ++ wr "\n" ++
    serialize_children children ++ wr "\x7d\n"
/-- The match on `joint.children` of lib.rs lines 187–202. -/
def serialize_children : JointChildren → WOut
  | .Joints js => jointsOut js
  | .EndSite e =>
    wr "End Site\n" ++ wr "\x7b\n" ++ serialize_offset e.offset ++ wr "\x7d\n"
/-- The per-child `JOINT ` writes of lib.rs lines 188–192. -/
def jointsOut : List Joint → WOut
  | [] => wnil
  | j :: js => wr "JOINT " ++ serialize_joint j ++ jointsOut js
end

/-- `serialize_hierarchy` (lib.rs lines 160–166). -/
def serialize_hierarchy (h : Hierarchy) : WOut :=
  wr "HIERARCHY\n" ++ wr "ROOT " ++ serialize_joint h.root

/-- The motion-value loop of lib.rs lines 218–225: each value is written,
then the separator is chosen by
`(index as u32) % total_channels != total_channels - 1` (space inside a
row, newline at the end of a row) — the `usize` loop index is truncated to
`u32` before the test; when `total_channels = 0` the remainder computation
panics — after the value's write. -/
def motion_rows (total : Nat) : Nat → List Dec → WOut
  | _, [] => wnil
  | index, v :: vs =>
    wr (fmtDec v) ++
      (if total = 0 then ⟨[], true⟩
       else
         (if index % 2 ^ 32 % total ≠ total - 1 then wr " " else wr "\n") ++
           motion_rows total (index + 1) vs)

/-- `serialize_motion` (lib.rs lines 213–228). -/
def serialize_motion (m : Motion) (total_channels : Nat) : WOut :=
  wr "MOTION\n" ++ wr ("Frames: " ++ fmtNat m.num_frames ++ "\n") ++
    wr ("Frame Time: " ++ fmtDec m.frame_time ++ "\n") ++
    motion_rows total_channels 0 m.frame_data

/-- `serialize` (lib.rs lines 153–158): hierarchy, then motion with the
root's recomputed total channel count. -/
def serialize (b : Bvh) : WOut :=
  serialize_hierarchy b.hierarchy ++
    serialize_motion b.motion b.hierarchy.root.total_channels

/-- The characters written by a completed (non-crashing, non-failing)
`serialize` call. -/
def outChars (o : WOut) : List Char := (o.chunks.map String.data).flatten

/-- The full serialized text of `b`, when serialization does not panic. -/
def serializeStr (b : Bvh) : Option String :=
  if (serialize b).crashed then none else some ⟨outChars (serialize b)⟩

/-! ## Lemmas about words -/

/-- A (complete) token word: non-empty and free of whitespace. -/
def wordChars (w : W) : Bool := w ≠ [] && w.all (fun c => !isWsChar c)

theorem splitWsGo_ws {c : Char} (hc : isWsChar c = true) (cur l) :
    splitWsGo cur (c :: l) =
      (if cur = [] then [] else [cur]) ++ splitWsGo [] l := by
  by_cases h : cur = [] <;> simp [splitWsGo, hc, h]

theorem splitWsGo_not_ws {c : Char} (hc : isWsChar c = false) (cur l) :
    splitWsGo cur (c :: l) = splitWsGo (cur ++ [c]) l := by
  simp [splitWsGo, hc]

theorem splitWsGo_word (w : W) (hw : w.all (fun c => !isWsChar c) = true) :
    ∀ cur l, splitWsGo cur (w ++ l) = splitWsGo (cur ++ w) l := by
  induction w with
  | nil => simp
  | cons c cs ih =>
    intro cur l
    simp only [List.all_cons, Bool.and_eq_true, Bool.not_eq_true'] at hw
    rw [List.cons_append, splitWsGo_not_ws hw.1, ih hw.2 (cur ++ [c]) l]
    congr 1
    simp

theorem splitWs_word_sep {w : W} (hw : wordChars w = true) {d : Char}
    (hd : isWsChar d = true) (l : List Char) :
    splitWs (w ++ d :: l) = w :: splitWs l := by
  simp only [wordChars, Bool.and_eq_true, ne_eq, decide_eq_true_eq] at hw
  rw [splitWs, splitWsGo_word w hw.2, List.nil_append, splitWsGo_ws hd,
    if_neg hw.1, splitWs]
  simp

theorem splitWs_ws {d : Char} (hd : isWsChar d = true) (l : List Char) :
    splitWs (d :: l) = splitWs l := by
  rw [splitWs, splitWsGo_ws hd]
  simp [splitWs]

theorem splitWs_nil : splitWs [] = [] := rfl

theorem splitWs_word_end {w : W} (hw : wordChars w = true) :
    splitWs w = [w] := by
  simp only [wordChars, Bool.and_eq_true, ne_eq, decide_eq_true_eq] at hw
  rw [splitWs, ← List.append_nil w, splitWsGo_word w hw.2, List.nil_append]
  simp [splitWsGo, hw.1]

/-- A token–separator sequence: each word followed by one separator
character. -/
def seps : List (W × Char) → List Char
  | [] => []
  | (w, d) :: l => w ++ d :: seps l

/-- All words complete, all separators whitespace. -/
def goodToks (l : List (W × Char)) : Bool :=
  l.all (fun p => wordChars p.1 && isWsChar p.2)

theorem splitWs_seps {l : List (W × Char)} (h : goodToks l = true) (rest : List Char) :
    splitWs (seps l ++ rest) = l.map Prod.fst ++ splitWs rest := by
  induction l with
  | nil => simp [seps]
  | cons p l ih =>
    obtain ⟨w, d⟩ := p
    simp only [goodToks, List.all_cons, Bool.and_eq_true] at h
    rw [seps, List.append_assoc, List.cons_append,
      splitWs_word_sep h.1.1 h.1.2, ih h.2]
    simp

theorem goodToks_append {a b : List (W × Char)} :
    goodToks (a ++ b) = (goodToks a && goodToks b) := by
  simp [goodToks]

theorem seps_append (a b : List (W × Char)) :
    seps (a ++ b) = seps a ++ seps b := by
  induction a with
  | nil => simp [seps]
  | cons p l ih => obtain ⟨w, d⟩ := p; simp [seps, ih]

/-! ## Lemmas about decimal numerals -/

theorem charsToNatGo_nil (a : Nat) : charsToNatGo a [] = a := rfl

theorem charsToNatGo_cons (a : Nat) (c : Char) (cs : List Char) :
    charsToNatGo a (c :: cs) = charsToNatGo (a * 10 + (c.toNat - 48)) cs := rfl

theorem charsToNatGo_append (a : Nat) (l m : List Char) :
    charsToNatGo a (l ++ m) = charsToNatGo (charsToNatGo a l) m := by
  induction l generalizing a with
  | nil => rw [List.nil_append, charsToNatGo_nil]
  | cons c cs ih =>
    rw [List.cons_append, charsToNatGo_cons, charsToNatGo_cons, ih]

theorem natToCharsGo_acc (fuel : Nat) :
    ∀ n acc, natToCharsGo fuel n acc = natToCharsGo fuel n [] ++ acc := by
  induction fuel with
  | zero => intro n acc; rfl
  | succ fuel ih =>
    intro n acc
    by_cases h : n < 10
    · simp [natToCharsGo, h]
    · simp only [natToCharsGo, h, if_false]
      rw [ih (n / 10) (Char.ofNat (48 + n % 10) :: acc),
        ih (n / 10) [Char.ofNat (48 + n % 10)]]
      simp

theorem natToCharsGo_fuel (n : Nat) :
    ∀ fuel fuel', n < fuel → n < fuel' →
      natToCharsGo fuel n [] = natToCharsGo fuel' n [] := by
  induction n using Nat.strong_induction_on with
  | _ n ih =>
    intro fuel fuel' h h'
    match fuel, fuel' with
    | f + 1, f' + 1 =>
      by_cases h10 : n < 10
      · simp [natToCharsGo, h10]
      · simp only [natToCharsGo, h10, if_false]
        have hd : n / 10 < n := Nat.div_lt_self (by omega) (by omega)
        rw [natToCharsGo_acc f, natToCharsGo_acc f',
          ih (n / 10) hd f f' (by omega) (by omega)]

theorem natToChars_lt10 {n : Nat} (h : n < 10) :
    natToChars n = [Char.ofNat (48 + n)] := by
  have : n % 10 = n := Nat.mod_eq_of_lt h
  simp [natToChars, natToCharsGo, h, this]

theorem natToChars_ge10 {n : Nat} (h : 10 ≤ n) :
    natToChars n = natToChars (n / 10) ++ [Char.ofNat (48 + n % 10)] := by
  have h10 : ¬ n < 10 := by omega
  have hd : n / 10 < n := Nat.div_lt_self (by omega) (by omega)
  rw [natToChars, natToChars]
  conv =>
    lhs
    rw [natToCharsGo, if_neg h10]
  rw [natToCharsGo_acc n (n / 10) [Char.ofNat (48 + n % 10)],
    natToCharsGo_fuel (n / 10) n (n / 10 + 1) (by omega) (by omega)]

theorem digitCh_toNat {d : Nat} (h : d < 10) :
    (Char.ofNat (48 + d)).toNat = 48 + d := by
  interval_cases d <;> decide

theorem digitCh_isDigit {d : Nat} (h : d < 10) :
    isDigitCh (Char.ofNat (48 + d)) = true := by
  interval_cases d <;> decide

theorem natToChars_all_digit (n : Nat) :
    (natToChars n).all isDigitCh = true := by
  induction n using Nat.strong_induction_on with
  | _ n ih =>
    by_cases h : n < 10
    · rw [natToChars_lt10 h]
      simp [digitCh_isDigit h]
    · rw [natToChars_ge10 (by omega)]
      have hd : n / 10 < n := Nat.div_lt_self (by omega) (by omega)
      simp only [List.all_append, Bool.and_eq_true]
      refine ⟨ih _ hd, ?_⟩
      simp [digitCh_isDigit (Nat.mod_lt n (by omega))]

theorem natToChars_ne_nil (n : Nat) : natToChars n ≠ [] := by
  by_cases h : n < 10
  · rw [natToChars_lt10 h]; simp
  · rw [natToChars_ge10 (by omega)]; simp

theorem natOfChars_natToChars (n : Nat) : natOfChars (natToChars n) = n := by
  induction n using Nat.strong_induction_on with
  | _ n ih =>
    by_cases h : n < 10
    · rw [natToChars_lt10 h, natOfChars, charsToNatGo_cons, charsToNatGo_nil,
        digitCh_toNat h]
      omega
    · rw [natToChars_ge10 (by omega)]
      have hd : n / 10 < n := Nat.div_lt_self (by omega) (by omega)
      rw [natOfChars, charsToNatGo_append]
      have hih := ih _ hd
      rw [natOfChars] at hih
      rw [hih, charsToNatGo_cons, charsToNatGo_nil,
        digitCh_toNat (Nat.mod_lt n (by omega))]
      omega

theorem natOfChars_replicate_zero (k : Nat) (l : List Char) :
    natOfChars (List.replicate k '0' ++ l) = natOfChars l := by
  induction k with
  | zero => simp
  | succ k ih =>
    rw [List.replicate_succ, List.cons_append, natOfChars, charsToNatGo_cons]
    rw [natOfChars] at ih
    simpa using ih

theorem digit_not_ws {c : Char} (h : isDigitCh c = true) : isWsChar c = false := by
  cases hw : isWsChar c
  · rfl
  · exfalso
    simp only [isWsChar, Bool.or_eq_true, decide_eq_true_eq] at hw
    rcases hw with ((rfl | rfl) | rfl) | rfl <;> exact absurd h (by decide)

theorem wordChars_of_digits {w : W} (h1 : w ≠ []) (h2 : w.all isDigitCh = true) :
    wordChars w = true := by
  simp only [wordChars, Bool.and_eq_true, ne_eq, decide_eq_true_eq,
    List.all_eq_true] at h2 ⊢
  exact ⟨h1, fun c hc => by simp [digit_not_ws (h2 c hc)]⟩

theorem wordChars_natToChars (n : Nat) : wordChars (natToChars n) = true :=
  wordChars_of_digits (natToChars_ne_nil n) (natToChars_all_digit n)

theorem intWord_natToChars (n : Nat) : intWord (natToChars n) = true := by
  simp [intWord, natToChars_ne_nil n, natToChars_all_digit n]

/-! ## Lemmas about decimal scalars -/

theorem str_data_mk (l : List Char) : (String.mk l).data = l := rfl

theorem str_mk_data (s : String) : String.mk s.data = s := by
  cases s; rfl

theorem takeWhile_all_append {p : Char → Bool} {l : List Char} (r : List Char)
    (h : l.all p = true) : (l ++ r).takeWhile p = l ++ r.takeWhile p := by
  induction l with
  | nil => simp
  | cons c cs ih =>
    simp only [List.all_cons, Bool.and_eq_true] at h
    simp [List.takeWhile_cons, h.1, ih h.2]

theorem dropWhile_all_append {p : Char → Bool} {l : List Char} (r : List Char)
    (h : l.all p = true) : (l ++ r).dropWhile p = r.dropWhile p := by
  induction l with
  | nil => simp
  | cons c cs ih =>
    simp only [List.all_cons, Bool.and_eq_true] at h
    simp [List.dropWhile_cons, h.1, ih h.2]

theorem takeWhile_all {p : Char → Bool} {l : List Char} (h : l.all p = true) :
    l.takeWhile p = l := by
  have := takeWhile_all_append (p := p) [] h
  simpa using this

theorem dropWhile_all {p : Char → Bool} {l : List Char} (h : l.all p = true) :
    l.dropWhile p = [] := by
  have := dropWhile_all_append (p := p) [] h
  simpa using this

theorem all_take {p : Char → Bool} {l : List Char} (k : Nat)
    (h : l.all p = true) : (l.take k).all p = true := by
  simp only [List.all_eq_true] at h ⊢
  exact fun c hc => h c (List.take_subset k l hc)

theorem all_drop {p : Char → Bool} {l : List Char} (k : Nat)
    (h : l.all p = true) : (l.drop k).all p = true := by
  simp only [List.all_eq_true] at h ⊢
  exact fun c hc => h c (List.drop_subset k l hc)

theorem decDigits_all_digit (d : Dec) : (decDigits d).all isDigitCh = true := by
  rw [decDigits]
  simp only [List.all_append, Bool.and_eq_true]
  constructor
  · simp only [List.all_eq_true]
    intro c hc
    rw [List.eq_of_mem_replicate hc]
    decide
  · exact natToChars_all_digit _

theorem decDigits_ne_nil (d : Dec) : decDigits d ≠ [] := by
  rw [decDigits]
  simp [natToChars_ne_nil]

theorem decDigits_length (d : Dec) : d.exp < (decDigits d).length := by
  rw [decDigits]
  simp only [List.length_append, List.length_replicate]
  have := natToChars_ne_nil d.mant.natAbs
  have : 0 < (natToChars d.mant.natAbs).length := List.length_pos.mpr this
  omega

theorem natOfChars_decDigits (d : Dec) :
    natOfChars (decDigits d) = d.mant.natAbs := by
  rw [decDigits, natOfChars_replicate_zero, natOfChars_natToChars]

theorem decCore_all (d : Dec) :
    (decCore d).all (fun c => isDigitCh c || c = '.') = true := by
  have hall := decDigits_all_digit d
  simp only [List.all_eq_true] at hall
  rw [decCore]
  by_cases h : d.exp = 0
  · simp only [h, if_true]
    simp only [List.all_eq_true]
    intro c hc
    simp [hall c hc]
  · simp only [h, if_false]
    simp only [List.all_append, List.all_cons, Bool.and_eq_true]
    refine ⟨?_, ?_, ?_⟩
    · simp only [List.all_eq_true]
      intro c hc
      simp [hall c (List.take_subset _ _ hc)]
    · simp
    · simp only [List.all_eq_true]
      intro c hc
      simp [hall c (List.drop_subset _ _ hc)]

theorem not_ws_of_digit_or_dot {c : Char}
    (h : (isDigitCh c || c = '.') = true) : isWsChar c = false := by
  rcases Bool.or_eq_true_iff.mp h with h | h
  · exact digit_not_ws h
  · simp only [decide_eq_true_eq] at h
    subst h; decide

theorem decCore_ne_nil (d : Dec) : decCore d ≠ [] := by
  rw [decCore]
  by_cases h : d.exp = 0
  · simpa [h] using decDigits_ne_nil d
  · simp [h]

theorem wordChars_decChars (d : Dec) : wordChars (decChars d) = true := by
  have hall := decCore_all d
  simp only [List.all_eq_true] at hall
  rw [decChars]
  by_cases h : d.mant < 0
  · simp only [h, if_true]
    simp only [wordChars, Bool.and_eq_true, ne_eq, decide_eq_true_eq]
    refine ⟨by simp, ?_⟩
    simp only [List.all_cons, Bool.and_eq_true]
    refine ⟨by decide, ?_⟩
    simp only [List.all_eq_true]
    intro c hc
    simp [not_ws_of_digit_or_dot (hall c hc)]
  · simp only [h, if_false]
    simp only [wordChars, Bool.and_eq_true, ne_eq, decide_eq_true_eq]
    refine ⟨decCore_ne_nil d, ?_⟩
    simp only [List.all_eq_true]
    intro c hc
    simp [not_ws_of_digit_or_dot (hall c hc)]

/-- The head of `decCore` is a digit (in particular not `-`). -/
theorem decCore_head_digit (d : Dec) :
    ∃ c cs, decCore d = c :: cs ∧ isDigitCh c = true := by
  have hall := decCore_all d
  obtain ⟨c, cs, h⟩ := List.exists_cons_of_ne_nil (decCore_ne_nil d)
  refine ⟨c, cs, h, ?_⟩
  rw [h] at hall
  simp only [List.all_cons, Bool.and_eq_true] at hall
  rcases Bool.or_eq_true_iff.mp hall.1 with hc | hc
  · exact hc
  · exfalso
    simp only [decide_eq_true_eq] at hc
    subst hc
    -- a dot cannot start `decCore`: its first character comes from
    -- `decDigits`, which is all digits
    rw [decCore] at h
    by_cases he : d.exp = 0
    · rw [if_pos he] at h
      have := decDigits_all_digit d
      rw [h] at this
      simp only [List.all_cons, Bool.and_eq_true] at this
      exact absurd this.1 (by decide)
    · rw [if_neg he] at h
      have hlen : d.exp < (decDigits d).length := decDigits_length d
      have htake : ((decDigits d).take ((decDigits d).length - d.exp)) ≠ [] := by
        simp only [ne_eq, List.take_eq_nil_iff]
        push_neg
        refine ⟨?_, decDigits_ne_nil d⟩
        omega
      obtain ⟨c', cs', h'⟩ := List.exists_cons_of_ne_nil htake
      rw [h'] at h
      simp only [List.cons_append, List.cons.injEq] at h
      have := decDigits_all_digit d
      have hcin : c' ∈ decDigits d := by
        have : c' ∈ (decDigits d).take ((decDigits d).length - d.exp) := by
          rw [h']; exact List.mem_cons_self _ _
        exact List.take_subset _ _ this
      simp only [List.all_eq_true] at this
      have := this c' hcin
      rw [h.1] at this
      exact absurd this (by decide)

theorem decOfCore_decCore (d : Dec) :
    decOfCore (decCore d) = some (d.mant.natAbs, d.exp) := by
  rw [decCore, decOfCore]
  by_cases he : d.exp = 0
  · simp only [he, if_true]
    rw [takeWhile_all (decDigits_all_digit d), dropWhile_all (decDigits_all_digit d),
      if_neg (decDigits_ne_nil d)]
    simp [natOfChars_decDigits, he]
  · simp only [he, if_false]
    have hlen : d.exp < (decDigits d).length := decDigits_length d
    have htake_all : ((decDigits d).take ((decDigits d).length - d.exp)).all isDigitCh = true :=
      all_take _ (decDigits_all_digit d)
    have hdrop_all : ((decDigits d).drop ((decDigits d).length - d.exp)).all isDigitCh = true :=
      all_drop _ (decDigits_all_digit d)
    rw [takeWhile_all_append _ htake_all, dropWhile_all_append _ htake_all]
    have hdot : List.takeWhile isDigitCh
        ('.' :: (decDigits d).drop ((decDigits d).length - d.exp)) = [] := by
      rw [List.takeWhile_cons]
      simp only [show isDigitCh '.' = false by decide]
      simp
    have hdot' : List.dropWhile isDigitCh
        ('.' :: (decDigits d).drop ((decDigits d).length - d.exp)) =
        '.' :: (decDigits d).drop ((decDigits d).length - d.exp) := by
      rw [List.dropWhile_cons]
      simp only [show isDigitCh '.' = false by decide]
      simp
    rw [hdot, hdot', List.append_nil]
    have htake_ne : (decDigits d).take ((decDigits d).length - d.exp) ≠ [] := by
      simp only [ne_eq, List.take_eq_nil_iff]
      push_neg
      exact ⟨by omega, decDigits_ne_nil d⟩
    rw [if_neg htake_ne]
    have hdrop_ne : (decDigits d).drop ((decDigits d).length - d.exp) ≠ [] := by
      simp only [ne_eq, List.drop_eq_nil_iff]
      omega
    simp only [hdrop_ne, hdrop_all, and_self, ne_eq, not_false_iff, if_true]
    rw [List.take_append_drop, natOfChars_decDigits, List.length_drop]
    have : (decDigits d).length - ((decDigits d).length - d.exp) = d.exp := by omega
    rw [this]

theorem decOfChars_decChars (d : Dec) : decOfChars (decChars d) = some d := by
  rw [decChars]
  by_cases h : d.mant < 0
  · rw [if_pos h, decOfChars]
    rw [if_pos (by simp)]
    simp only [List.tail_cons]
    rw [decOfCore_decCore d]
    rw [Option.map_some']
    congr 1
    have hm : -(d.mant.natAbs : Int) = d.mant := by omega
    cases d
    simp only at hm ⊢
    rw [hm]
  · rw [if_neg h, decOfChars]
    obtain ⟨c, cs, hc, hcd⟩ := decCore_head_digit d
    have hhead : (decCore d).head? ≠ some '-' := by
      rw [hc]
      simp only [List.head?_cons, ne_eq, Option.some.injEq]
      intro hx
      rw [hx] at hcd
      exact absurd hcd (by decide)
    rw [if_neg hhead, decOfCore_decCore d]
    rw [Option.map_some']
    congr 1
    have hm : (d.mant.natAbs : Int) = d.mant := Int.natAbs_of_nonneg (by omega)
    cases d
    simp only at hm ⊢
    rw [hm]

theorem floatWord_decChars (d : Dec) : floatWord (decChars d) = true := by
  rw [floatWord, decOfChars_decChars]
  rfl

/-! ## Lemmas about write traces -/

theorem append_def (a b : WOut) : a ++ b = WOut.seq a b := rfl

theorem seq_crashed (a b : WOut) : (a ++ b).crashed = (a.crashed || b.crashed) := by
  rw [append_def, WOut.seq]
  by_cases h : a.crashed <;> simp [h]

theorem seq_chunks {a : WOut} (b : WOut) (h : a.crashed = false) :
    (a ++ b).chunks = a.chunks ++ b.chunks := by
  rw [append_def, WOut.seq, if_neg (by simp [h])]

theorem wr_crashed (s : String) : (wr s).crashed = false := rfl

theorem wr_chunks (s : String) : (wr s).chunks = [s] := rfl

theorem wnil_crashed : wnil.crashed = false := rfl

theorem outChars_append {a : WOut} (b : WOut) (h : a.crashed = false) :
    outChars (a ++ b) = outChars a ++ outChars b := by
  rw [outChars, seq_chunks b h]
  simp [outChars]

theorem outChars_wr (s : String) : outChars (wr s) = s.data := by
  simp [outChars, wr]

theorem outChars_wnil : outChars wnil = [] := rfl

theorem channelsOut_crashed (cs : List Channel) :
    (channelsOut cs).crashed = false := by
  induction cs with
  | nil => rfl
  | cons c cs ih => rw [channelsOut, seq_crashed, ih, wr_crashed]; rfl

theorem serialize_offset_crashed (o : Offset) :
    (serialize_offset o).crashed = false := rfl

mutual
theorem serialize_joint_crashed : (j : Joint) → (serialize_joint j).crashed = false
  | .mk n o cs ch => by
    rw [serialize_joint]
    simp [seq_crashed, serialize_children_crashed ch, wr_crashed,
      channelsOut_crashed, serialize_offset_crashed]
theorem serialize_children_crashed :
    (ch : JointChildren) → (serialize_children ch).crashed = false
  | .Joints js => by
    rw [serialize_children]
    exact jointsOut_crashed js
  | .EndSite e => by
    rw [serialize_children]
    simp [seq_crashed, wr_crashed, serialize_offset_crashed]
theorem jointsOut_crashed : (js : List Joint) → (jointsOut js).crashed = false
  | [] => rfl
  | j :: js => by
    rw [jointsOut]
    simp [seq_crashed, serialize_joint_crashed j, jointsOut_crashed js, wr_crashed]
end

theorem serialize_hierarchy_crashed (h : Hierarchy) :
    (serialize_hierarchy h).crashed = false := by
  rw [serialize_hierarchy]
  simp [seq_crashed, wr_crashed, serialize_joint_crashed]

attribute [simp] seq_crashed wr_crashed wnil_crashed outChars_wr outChars_wnil
  channelsOut_crashed serialize_offset_crashed serialize_joint_crashed
  serialize_children_crashed jointsOut_crashed serialize_hierarchy_crashed
  outChars_append

/-! ## Words of the serialized text

Each lemma below peels the serializer's output one token at a time with
`splitWs_word_sep`: every written token is followed by exactly one space or
newline. -/

/-- Cons-level spellings of the serializer's fixed keywords, in the simp
normal form of the serialized text. -/
theorem kw_OFFSET (l : List Char) :
    'O' :: 'F' :: 'F' :: 'S' :: 'E' :: 'T' :: ' ' :: l
      = "OFFSET".data ++ ' ' :: l := rfl

theorem kw_CHANNELS (l : List Char) :
    'C' :: 'H' :: 'A' :: 'N' :: 'N' :: 'E' :: 'L' :: 'S' :: ' ' :: l
      = "CHANNELS".data ++ ' ' :: l := rfl

theorem kw_lbrace (l : List Char) :
    '\x7b' :: '\n' :: l = "\x7b".data ++ '\n' :: l := rfl

theorem kw_rbrace (l : List Char) :
    '\x7d' :: '\n' :: l = "\x7d".data ++ '\n' :: l := rfl

theorem kw_end_site (l : List Char) :
    'E' :: 'n' :: 'd' :: ' ' :: 'S' :: 'i' :: 't' :: 'e' :: '\n' :: l
      = "End".data ++ ' ' :: ("Site".data ++ '\n' :: l) := rfl

theorem kw_JOINT (l : List Char) :
    'J' :: 'O' :: 'I' :: 'N' :: 'T' :: ' ' :: l = "JOINT".data ++ ' ' :: l := rfl

theorem kw_HIERARCHY (l : List Char) :
    'H' :: 'I' :: 'E' :: 'R' :: 'A' :: 'R' :: 'C' :: 'H' :: 'Y' :: '\n' :: l
      = "HIERARCHY".data ++ '\n' :: l := rfl

theorem kw_ROOT (l : List Char) :
    'R' :: 'O' :: 'O' :: 'T' :: ' ' :: l = "ROOT".data ++ ' ' :: l := rfl

theorem kw_MOTION (l : List Char) :
    'M' :: 'O' :: 'T' :: 'I' :: 'O' :: 'N' :: '\n' :: l
      = "MOTION".data ++ '\n' :: l := rfl

theorem kw_Frames (l : List Char) :
    'F' :: 'r' :: 'a' :: 'm' :: 'e' :: 's' :: ':' :: ' ' :: l
      = "Frames:".data ++ ' ' :: l := rfl

theorem kw_FrameTime (l : List Char) :
    'F' :: 'r' :: 'a' :: 'm' :: 'e' :: ' ' :: 'T' :: 'i' :: 'm' :: 'e' :: ':' :: ' ' :: l
      = "Frame".data ++ ' ' :: ("Time:".data ++ ' ' :: l) := rfl

/-- Identifier words contain no whitespace. -/
theorem ident_not_ws {c : Char} (h : isIdentCh c = true) : isWsChar c = false := by
  cases hw : isWsChar c
  · rfl
  · exfalso
    simp only [isWsChar, Bool.or_eq_true, decide_eq_true_eq] at hw
    rcases hw with ((rfl | rfl) | rfl) | rfl <;> exact absurd h (by decide)

theorem wordChars_of_ident {w : W} (h : identWord w = true) : wordChars w = true := by
  simp only [identWord, wordChars, Bool.and_eq_true, ne_eq, decide_eq_true_eq,
    List.all_eq_true] at h ⊢
  exact ⟨h.1, fun c hc => by simp [ident_not_ws (h.2 c hc)]⟩

theorem wordChars_channel_str (c : Channel) :
    wordChars (channel_str c).data = true := by
  cases c <;> decide

mutual
/-- Structural well-formedness of a joint tree (spec's data-model
invariants): every name is a grammar identifier and every `Joints` variant
is non-empty. -/
def jointWF : Joint → Bool
  | .mk n _ _ ch => identWord n.data && childWF ch
def childWF : JointChildren → Bool
  | .Joints js => !js.isEmpty && jointsWF js
  | .EndSite _ => true
def jointsWF : List Joint → Bool
  | [] => true
  | j :: js => jointWF j && jointsWF js
end

/-- Words of a serialized `OFFSET` line. -/
def offsetWords (o : Offset) : List W :=
  ["OFFSET".data, decChars o.x, decChars o.y, decChars o.z]

/-- Words of a serialized `CHANNELS` line. -/
def channelsWords (cs : List Channel) : List W :=
  "CHANNELS".data :: natToChars cs.length :: cs.map (fun c => (channel_str c).data)

mutual
/-- Words of a serialized joint body, starting at its name. -/
def bodyWords : Joint → List W
  | .mk n o cs ch =>
    n.data :: "\x7b".data ::
      (offsetWords o ++ channelsWords cs ++ childWords ch ++ ["\x7d".data])
/-- Words of serialized joint children. -/
def childWords : JointChildren → List W
  | .Joints js => jointsWords js
  | .EndSite e =>
    "End".data :: "Site".data :: "\x7b".data :: (offsetWords e.offset ++ ["\x7d".data])
/-- Words of a serialized list of nested joints. -/
def jointsWords : List Joint → List W
  | [] => []
  | j :: js => "JOINT".data :: (bodyWords j ++ jointsWords js)
end

theorem split_serialize_offset (o : Offset) (rest : List Char) :
    splitWs (outChars (serialize_offset o) ++ rest) = offsetWords o ++ splitWs rest := by
  rw [serialize_offset, outChars_wr]
  simp only [String.data_append, fmtDec, str_data_mk, List.append_assoc,
    List.cons_append, List.singleton_append, List.nil_append]
  rw [kw_OFFSET, splitWs_word_sep (by decide) (by decide),
    splitWs_word_sep (wordChars_decChars o.x) (by decide),
    splitWs_word_sep (wordChars_decChars o.y) (by decide),
    splitWs_word_sep (wordChars_decChars o.z) (by decide)]
  simp [offsetWords]

theorem split_chans (cs : List Channel) (rest : List Char) :
    splitWs (outChars (channelsOut cs) ++ '\n' :: rest) =
      cs.map (fun c => (channel_str c).data) ++ splitWs rest := by
  induction cs with
  | nil =>
    rw [channelsOut, outChars_wnil, List.nil_append, splitWs_ws (by decide)]
    simp
  | cons c cs ih =>
    rw [channelsOut, outChars_append _ (wr_crashed _), outChars_wr]
    simp only [String.data_append, List.append_assoc, List.cons_append,
      List.singleton_append, List.nil_append]
    rw [splitWs_ws (by decide)]
    cases cs with
    | nil =>
      rw [channelsOut, outChars_wnil, List.nil_append,
        splitWs_word_sep (wordChars_channel_str c) (by decide)]
      simp
    | cons c2 cs2 =>
      rw [channelsOut, outChars_append _ (wr_crashed _), outChars_wr]
      simp only [String.data_append, List.append_assoc, List.cons_append,
        List.singleton_append, List.nil_append]
      rw [splitWs_word_sep (wordChars_channel_str c) (by decide)]
      rw [channelsOut, outChars_append _ (wr_crashed _), outChars_wr] at ih
      simp only [String.data_append, List.append_assoc, List.cons_append,
        List.singleton_append, List.nil_append] at ih
      rw [splitWs_ws (by decide)] at ih
      rw [ih]
      simp

theorem split_channels_line (cs : List Channel) (k : Nat) (rest : List Char) :
    splitWs ("CHANNELS".data ++ ' ' ::
        (natToChars k ++ (outChars (channelsOut cs) ++ '\n' :: rest))) =
      "CHANNELS".data :: natToChars k ::
        (cs.map (fun c => (channel_str c).data) ++ splitWs rest) := by
  rw [splitWs_word_sep (by decide) (by decide)]
  cases cs with
  | nil =>
    rw [channelsOut, outChars_wnil, List.nil_append,
      splitWs_word_sep (wordChars_natToChars k) (by decide)]
    simp
  | cons c cs2 =>
    rw [channelsOut, outChars_append _ (wr_crashed _), outChars_wr]
    simp only [String.data_append, List.append_assoc, List.cons_append,
      List.singleton_append, List.nil_append]
    rw [splitWs_word_sep (wordChars_natToChars k) (by decide)]
    have h := split_chans (c :: cs2) rest
    rw [channelsOut, outChars_append _ (wr_crashed _), outChars_wr] at h
    simp only [String.data_append, List.append_assoc, List.cons_append,
      List.singleton_append, List.nil_append] at h
    rw [splitWs_ws (by decide)] at h
    rw [h]

mutual
theorem split_serialize_joint : (j : Joint) → jointWF j = true →
    ∀ rest, splitWs (outChars (serialize_joint j) ++ rest) =
      bodyWords j ++ splitWs rest
  | .mk n o cs ch, h, rest => by
    rw [jointWF] at h
    simp only [Bool.and_eq_true] at h
    rw [serialize_joint, bodyWords]
    simp only [outChars_append, seq_crashed, wr_crashed, serialize_offset_crashed,
      channelsOut_crashed, serialize_children_crashed, jointsOut_crashed,
      Bool.or_self, Bool.or_false, Bool.false_or, outChars_wr]
    simp only [String.data_append, fmtNat, str_data_mk, List.append_assoc,
      List.cons_append, List.singleton_append, List.nil_append]
    rw [splitWs_word_sep (wordChars_of_ident h.1) (by decide),
      kw_lbrace, splitWs_word_sep (by decide) (by decide)]
    rw [split_serialize_offset o]
    rw [kw_CHANNELS, split_channels_line cs cs.length]
    rw [split_serialize_children ch h.2]
    rw [kw_rbrace, splitWs_word_sep (by decide) (by decide)]
    simp [channelsWords, offsetWords]
theorem split_serialize_children : (ch : JointChildren) → childWF ch = true →
    ∀ rest, splitWs (outChars (serialize_children ch) ++ rest) =
      childWords ch ++ splitWs rest
  | .Joints js, h, rest => by
    rw [serialize_children, childWords]
    rw [childWF] at h
    simp only [Bool.and_eq_true] at h
    exact split_jointsOut js h.2 rest
  | .EndSite e, _, rest => by
    rw [serialize_children, childWords]
    simp only [outChars_append, seq_crashed, wr_crashed, serialize_offset_crashed,
      Bool.or_self, Bool.or_false, Bool.false_or, outChars_wr]
    simp only [String.data_append, List.append_assoc, List.cons_append,
      List.singleton_append, List.nil_append]
    rw [kw_end_site, splitWs_word_sep (by decide) (by decide),
      splitWs_word_sep (by decide) (by decide),
      kw_lbrace, splitWs_word_sep (by decide) (by decide)]
    rw [split_serialize_offset e.offset]
    rw [kw_rbrace, splitWs_word_sep (by decide) (by decide)]
theorem split_jointsOut : (js : List Joint) → jointsWF js = true →
    ∀ rest, splitWs (outChars (jointsOut js) ++ rest) =
      jointsWords js ++ splitWs rest
  | [], _, rest => by
    rw [jointsOut, jointsWords, outChars_wnil, List.nil_append, List.nil_append]
  | j :: js, h, rest => by
    rw [jointsWF] at h
    simp only [Bool.and_eq_true] at h
    rw [jointsOut, jointsWords]
    simp only [outChars_append, seq_crashed, wr_crashed, serialize_joint_crashed,
      jointsOut_crashed, Bool.or_self, Bool.or_false, Bool.false_or, outChars_wr]
    simp only [String.data_append, List.append_assoc, List.cons_append,
      List.singleton_append, List.nil_append]
    rw [kw_JOINT, splitWs_word_sep (by decide) (by decide),
      split_serialize_joint j h.1, split_jointsOut js h.2]
end

theorem motion_rows_nil (C i : Nat) : motion_rows C i [] = wnil := rfl

theorem motion_rows_cons (C i : Nat) (v : Dec) (vs : List Dec) :
    motion_rows C i (v :: vs) =
      wr (fmtDec v) ++
        (if C = 0 then ⟨[], true⟩
         else (if i % 2 ^ 32 % C ≠ C - 1 then wr " " else wr "\n") ++
           motion_rows C (i + 1) vs) := by
  rw [motion_rows]

theorem motion_rows_crashed {C : Nat} {data : List Dec}
    (h : C ≠ 0 ∨ data = []) (i : Nat) : (motion_rows C i data).crashed = false := by
  induction data generalizing i with
  | nil => rfl
  | cons v vs ih =>
    have hC : C ≠ 0 := by
      rcases h with h | h
      · exact h
      · simp at h
    rw [motion_rows_cons, if_neg hC]
    simp only [seq_crashed, wr_crashed, ih (Or.inl hC), Bool.or_false,
      Bool.false_or]
    split <;> rfl

theorem serialize_motion_crashed (m : Motion) (C : Nat) :
    (serialize_motion m C).crashed = (motion_rows C 0 m.frame_data).crashed := by
  rw [serialize_motion]
  simp [seq_crashed, wr_crashed]

theorem serialize_crashed (b : Bvh) :
    (serialize b).crashed =
      (motion_rows b.hierarchy.root.total_channels 0 b.motion.frame_data).crashed := by
  rw [serialize]
  simp [seq_crashed, serialize_hierarchy_crashed, serialize_motion_crashed]

theorem split_motion_rows : ∀ (data : List Dec) (C i : Nat) (rest : List Char),
    C ≠ 0 ∨ data = [] →
    splitWs (outChars (motion_rows C i data) ++ rest) =
      data.map decChars ++ splitWs rest := by
  intro data
  induction data with
  | nil =>
    intro C i rest _
    rw [motion_rows_nil, outChars_wnil, List.nil_append]
    simp
  | cons v vs ih =>
    intro C i rest h
    have hC : C ≠ 0 := by
      rcases h with h | h
      · exact h
      · simp at h
    rw [motion_rows_cons, if_neg hC]
    by_cases hsep : i % 2 ^ 32 % C ≠ C - 1
    · rw [if_pos hsep]
      simp only [outChars_append, seq_crashed, wr_crashed,
        motion_rows_crashed (Or.inl hC), Bool.or_self, Bool.or_false,
        Bool.false_or, outChars_wr]
      simp only [String.data_append, fmtDec, str_data_mk, List.append_assoc,
        List.cons_append, List.singleton_append, List.nil_append]
      rw [splitWs_word_sep (wordChars_decChars v) (by decide),
        ih C (i + 1) rest (Or.inl hC)]
      simp
    · rw [if_neg hsep]
      simp only [outChars_append, seq_crashed, wr_crashed,
        motion_rows_crashed (Or.inl hC), Bool.or_self, Bool.or_false,
        Bool.false_or, outChars_wr]
      simp only [String.data_append, fmtDec, str_data_mk, List.append_assoc,
        List.cons_append, List.singleton_append, List.nil_append]
      rw [splitWs_word_sep (wordChars_decChars v) (by decide),
        ih C (i + 1) rest (Or.inl hC)]
      simp

/-- Words of the serialized `MOTION` section. -/
def motionWords (m : Motion) : List W :=
  "MOTION".data :: "Frames:".data :: natToChars m.num_frames ::
    "Frame".data :: "Time:".data :: decChars m.frame_time ::
    m.frame_data.map decChars

theorem split_serialize_motion (m : Motion) (C : Nat) (rest : List Char)
    (h : C ≠ 0 ∨ m.frame_data = []) :
    splitWs (outChars (serialize_motion m C) ++ rest) =
      motionWords m ++ splitWs rest := by
  rw [serialize_motion]
  simp only [outChars_append, seq_crashed, wr_crashed, Bool.or_self,
    Bool.or_false, Bool.false_or, outChars_wr]
  simp only [String.data_append, fmtDec, fmtNat, str_data_mk, List.append_assoc,
    List.cons_append, List.singleton_append, List.nil_append]
  rw [kw_MOTION, splitWs_word_sep (by decide) (by decide),
    kw_Frames, splitWs_word_sep (by decide) (by decide),
    splitWs_word_sep (wordChars_natToChars _) (by decide),
    kw_FrameTime, splitWs_word_sep (by decide) (by decide),
    splitWs_word_sep (by decide) (by decide),
    splitWs_word_sep (wordChars_decChars _) (by decide),
    split_motion_rows _ C 0 rest h]
  simp [motionWords]

/-- Words of a whole serialized document. -/
def docWords (b : Bvh) : List W :=
  "HIERARCHY".data :: "ROOT".data ::
    (bodyWords b.hierarchy.root ++ motionWords b.motion)

theorem split_serialize (b : Bvh)
    (hnames : jointWF b.hierarchy.root = true)
    (h : b.hierarchy.root.total_channels ≠ 0 ∨ b.motion.frame_data = []) :
    splitWs (outChars (serialize b)) = docWords b := by
  rw [show outChars (serialize b) = outChars (serialize b) ++ [] by simp]
  rw [serialize, serialize_hierarchy]
  simp only [outChars_append, seq_crashed, wr_crashed, serialize_joint_crashed,
    serialize_hierarchy_crashed, serialize_motion_crashed,
    motion_rows_crashed h, Bool.or_self, Bool.or_false, Bool.false_or,
    outChars_wr]
  simp only [String.data_append, List.append_assoc, List.cons_append,
    List.singleton_append, List.nil_append]
  rw [kw_HIERARCHY, splitWs_word_sep (by decide) (by decide),
    kw_ROOT, splitWs_word_sep (by decide) (by decide)]
  rw [show outChars (serialize_joint b.hierarchy.root) ++
      (outChars (serialize_motion b.motion b.hierarchy.root.total_channels) ++ []) =
      outChars (serialize_joint b.hierarchy.root) ++
      (outChars (serialize_motion b.motion b.hierarchy.root.total_channels) ++ [])
      from rfl]
  rw [split_serialize_joint b.hierarchy.root hnames,
    split_serialize_motion b.motion _ [] h, splitWs_nil]
  simp [docWords]

/-! ## The token forest of a serialized document -/

/-- The leaf pair of a float token. -/
def floatPair (d : Dec) : Pair := .mk .float (fmtDec d) []

/-- The `offset` pair of a serialized offset. -/
def offsetPair (o : Offset) : Pair :=
  .mk .offset "" [floatPair o.x, floatPair o.y, floatPair o.z]

/-- The `channels` pair of a serialized channel list. -/
def channelsPair (cs : List Channel) : Pair :=
  .mk .channels ""
    (.mk .integer (fmtNat cs.length) [] :: cs.map (fun c => .mk .channel (channel_str c) []))

/-- The `end_site` pair of a serialized end site. -/
def endSitePair (e : EndSite) : Pair := .mk .end_site "" [offsetPair e.offset]

mutual
/-- The `joint_body` pair of a serialized joint. -/
def jointBodyPair : Joint → Pair
  | .mk n o cs ch =>
    .mk .joint_body "" (.mk .identifier n [] :: offsetPair o :: channelsPair cs :: childPairs ch)
/-- The children pairs of a serialized joint body. -/
def childPairs : JointChildren → List Pair
  | .Joints js => jointPairs js
  | .EndSite e => [endSitePair e]
/-- The `joint` pairs of a serialized list of nested joints. -/
def jointPairs : List Joint → List Pair
  | [] => []
  | j :: js => .mk .joint "" [jointBodyPair j] :: jointPairs js
end

/-- The `hierarchy` pair of a serialized document. -/
def hierPair (j : Joint) : Pair :=
  .mk .hierarchy "" [.mk .root_joint "" [jointBodyPair j]]

/-- The `motion` pair of a serialized document. -/
def motionPair (m : Motion) : Pair :=
  .mk .motion ""
    [.mk .frames ""
      (.mk .integer (fmtNat m.num_frames) [] :: floatPair m.frame_time ::
        m.frame_data.map floatPair)]

/-- The token forest of a serialized document. -/
def docForest (b : Bvh) : List Pair :=
  [.mk .bvh "" [hierPair b.hierarchy.root, motionPair b.motion]]

/-! ## Completeness of the tokenizer on serialized documents -/

theorem expectTok_cons (t : W) (ws : List W) : expectTok t (t :: ws) = .ok ws := by
  simp [expectTok]

theorem matchLeaf_cons {good : W → Bool} {w : W} (r : Rule) (what : String)
    (ws : List W) (h : good w = true) :
    matchLeaf r good what (w :: ws) = .ok (.mk r ⟨w⟩ [], ws) := by
  simp [matchLeaf, h]

theorem channelWord_channel_str (c : Channel) :
    channelWord (channel_str c).data = true := by
  cases c <;> decide

theorem channelOfString_channel_str (c : Channel) :
    channelOfString (channel_str c) = some c := by
  cases c <;> decide

theorem matchChannelN_complete (cs : List Channel) (ws : List W) :
    matchChannelN cs.length (cs.map (fun c => (channel_str c).data) ++ ws) =
      .ok (cs.map (fun c => Pair.mk .channel (channel_str c) []), ws) := by
  induction cs with
  | nil => rfl
  | cons c cs ih =>
    simp only [List.map_cons, List.length_cons, List.cons_append]
    simp only [matchChannelN, matchChannel,
      matchLeaf_cons _ _ _ (channelWord_channel_str c), ih, str_mk_data]

theorem matchOffset_complete (o : Offset) (ws : List W) :
    matchOffsetBlock (offsetWords o ++ ws) = .ok (offsetPair o, ws) := by
  rw [offsetWords, matchOffsetBlock]
  simp only [List.cons_append, expectTok_cons, matchFloat,
    matchLeaf_cons _ _ _ (floatWord_decChars o.x),
    matchLeaf_cons _ _ _ (floatWord_decChars o.y),
    matchLeaf_cons _ _ _ (floatWord_decChars o.z)]
  simp [offsetPair, floatPair, fmtDec]

theorem matchChannels_complete (cs : List Channel) (ws : List W) :
    matchChannelsBlock (channelsWords cs ++ ws) = .ok (channelsPair cs, ws) := by
  rw [channelsWords, matchChannelsBlock]
  have hval : natOfChars (Pair.mk .integer ⟨natToChars cs.length⟩ []).str.data
      = cs.length := by
    rw [Pair.str, str_data_mk, natOfChars_natToChars]
  simp only [List.cons_append, expectTok_cons, matchInteger,
    matchLeaf_cons _ _ _ (intWord_natToChars cs.length), hval,
    matchChannelN_complete cs ws]
  simp [channelsPair, fmtNat]

theorem matchEndSite_complete (e : EndSite) (ws : List W) :
    matchEndSite (childWords (.EndSite e) ++ ws) = .ok (endSitePair e, ws) := by
  rw [childWords, matchEndSite]
  simp only [List.cons_append, expectTok_cons, List.append_assoc,
    List.singleton_append, matchOffset_complete e.offset]
  rfl

theorem match_complete : ∀ fuel : Nat,
    (∀ (j : Joint) (rest : List W), jointWF j = true →
      (bodyWords j ++ rest).length < fuel →
      matchJointBody fuel (bodyWords j ++ rest) = .ok (jointBodyPair j, rest)) ∧
    (∀ (js : List Joint) (rest : List W), jointsWF js = true → js ≠ [] →
      (jointsWords js ++ rest).length < fuel →
      rest.head? ≠ some "JOINT".data →
      matchJoints fuel (jointsWords js ++ rest) = .ok (jointPairs js, rest)) := by
  intro fuel
  induction fuel using Nat.strong_induction_on with
  | _ fuel ih =>
    match fuel with
    | 0 =>
      constructor
      · intro j rest _ hlen
        omega
      · intro js rest _ _ hlen _
        omega
    | f + 1 =>
      have ihb := (ih f (by omega)).1
      have ihj := (ih f (by omega)).2
      constructor
      · rintro ⟨n, o, cs, ch⟩ rest hwf hlen
        rw [jointWF] at hwf
        simp only [Bool.and_eq_true] at hwf
        rw [bodyWords] at hlen ⊢
        simp only [List.cons_append, List.append_assoc, List.nil_append]
          at hlen ⊢
        simp only [matchJointBody, matchIdent, matchLeaf_cons _ _ _ hwf.1,
          expectTok_cons, matchOffset_complete, matchChannels_complete]
        simp only [List.length_cons, List.length_append, offsetWords,
          channelsWords, List.length_map] at hlen
        cases ch with
        | Joints js =>
          rw [childWF] at hwf
          simp only [Bool.and_eq_true, Bool.not_eq_true'] at hwf
          obtain ⟨hne0, hjswf⟩ := hwf.2
          have hne : js ≠ [] := by
            cases js with
            | nil => simp at hne0
            | cons a b => simp
          simp only [childWords] at hlen ⊢
          have hhead : (jointsWords js ++ "\x7d".data :: rest).head? =
              some "JOINT".data := by
            match js, hne with
            | j :: js2, _ => rw [jointsWords]; rfl
          rw [if_pos hhead]
          have hlen2 : (jointsWords js ++ "\x7d".data :: rest).length < f := by
            simp only [List.length_append, List.length_cons] at hlen ⊢
            omega
          rw [ihj js ("\x7d".data :: rest) hjswf hne hlen2 (by simp)]
          simp only [expectTok_cons]
          simp [jointBodyPair, childPairs, str_mk_data]
        | EndSite e =>
          simp only [childWords] at hlen ⊢
          rw [if_neg (by simp)]
          rw [show "End".data :: "Site".data :: "\x7b".data ::
              (offsetWords e.offset ++ ["\x7d".data]) ++ "\x7d".data :: rest =
              childWords (.EndSite e) ++ ("\x7d".data :: rest) from by
            rw [childWords]]
          rw [matchEndSite_complete e]
          simp only [expectTok_cons]
          simp [jointBodyPair, childPairs, str_mk_data]
      · intro js rest hwf hne hlen hhead
        match js with
        | j :: js2 =>
          rw [jointsWF] at hwf
          simp only [Bool.and_eq_true] at hwf
          rw [jointsWords] at hlen ⊢
          simp only [List.cons_append, List.append_assoc] at hlen ⊢
          have hlenb : (bodyWords j ++ (jointsWords js2 ++ rest)).length < f := by
            simp only [List.length_cons, List.length_append] at hlen ⊢
            omega
          simp only [matchJoints, expectTok_cons,
            ihb j (jointsWords js2 ++ rest) hwf.1 hlenb]
          match js2 with
          | [] =>
            simp only [jointsWords, List.nil_append]
            rw [if_neg (by simpa using hhead)]
            simp [jointPairs]
          | j2 :: js3 =>
            have hhead2 : (jointsWords (j2 :: js3) ++ rest).head? =
                some "JOINT".data := by
              rw [jointsWords]; rfl
            rw [if_pos hhead2]
            have hlen2 : (jointsWords (j2 :: js3) ++ rest).length < f := by
              simp only [List.length_cons, List.length_append] at hlen ⊢
              omega
            rw [ihj (j2 :: js3) rest hwf.2 (by simp) hlen2 hhead]
            simp [jointPairs]

theorem matchFloatStar_complete (ds : List Dec) :
    matchFloatStar (ds.map decChars) = (ds.map floatPair, []) := by
  induction ds with
  | nil => rfl
  | cons d ds ih =>
    simp only [List.map_cons, matchFloatStar, floatWord_decChars d, if_true, ih]
    simp [floatPair, fmtDec]

theorem matchMotion_complete (m : Motion) :
    matchMotion (motionWords m) = .ok (motionPair m, []) := by
  rw [motionWords, matchMotion]
  simp only [expectTok_cons, matchInteger,
    matchLeaf_cons _ _ _ (intWord_natToChars m.num_frames), matchFloat,
    matchLeaf_cons _ _ _ (floatWord_decChars m.frame_time),
    matchFloatStar_complete m.frame_data]
  simp [motionPair, floatPair, fmtDec, fmtNat]

theorem matchHierarchy_complete (j : Joint) (rest : List W) (fuel : Nat)
    (hwf : jointWF j = true) (hlen : (bodyWords j ++ rest).length < fuel) :
    matchHierarchy fuel ("HIERARCHY".data :: "ROOT".data :: (bodyWords j ++ rest)) =
      .ok (hierPair j, rest) := by
  rw [matchHierarchy]
  simp only [expectTok_cons, (match_complete fuel).1 j rest hwf hlen]
  rfl

theorem matchBvh_complete (b : Bvh) (fuel : Nat)
    (hwf : jointWF b.hierarchy.root = true)
    (hlen : (bodyWords b.hierarchy.root ++ motionWords b.motion).length < fuel) :
    matchBvh fuel (docWords b) = .ok (docForest b) := by
  rw [docWords, matchBvh]
  simp only [matchHierarchy_complete b.hierarchy.root (motionWords b.motion) fuel hwf hlen,
    matchMotion_complete b.motion]
  rfl

/-- On the output of `serialize`, tokenization succeeds and produces
exactly the expected token forest. -/
theorem tokenize_serialize (b : Bvh)
    (hwf : jointWF b.hierarchy.root = true)
    (hch : b.hierarchy.root.total_channels ≠ 0 ∨ b.motion.frame_data = []) :
    tokenize ⟨outChars (serialize b)⟩ = .ok (docForest b) := by
  rw [tokenize, str_data_mk, split_serialize b hwf hch]
  apply matchBvh_complete b _ hwf
  rw [docWords]
  simp only [List.length_cons, List.length_append]
  omega

/-! ## The tree builder rebuilds the serialized value -/

theorem findRule_cons (r : Rule) (p : Pair) (ps : List Pair) :
    findRule r (p :: ps) =
      if p.rule = r then some (p, ps) else findRule r ps := by
  rw [findRule]

theorem decOfChars_floatPair (d : Dec) :
    decOfChars (floatPair d).str.data = some d := by
  rw [floatPair, Pair.str, fmtDec, str_data_mk, decOfChars_decChars]

theorem parse_f64_floatPair (d : Dec) (ps : List Pair) :
    parse_f64 (floatPair d :: ps) = some (d, ps) := by
  rw [parse_f64]
  simp only [findRule_cons, floatPair, Pair.rule, if_true, reduceCtorEq]
  simp only [show (Pair.mk .float (fmtDec d) []).str.data
      = (floatPair d).str.data from rfl, decOfChars_floatPair]

theorem parse_offset_offsetPair (o : Offset) :
    parse_offset (offsetPair o).inner = some o := by
  rw [offsetPair, Pair.inner, parse_offset]
  simp only [parse_f64_floatPair]

theorem optSequence_map_some (l : List α) :
    optSequence (l.map some) = some l := by
  induction l with
  | nil => rfl
  | cons a l ih => simp [optSequence, ih]

theorem rule_mk (r : Rule) (str : String) (inner : List Pair) :
    (Pair.mk r str inner).rule = r := rfl

theorem str_mk_pair (r : Rule) (str : String) (inner : List Pair) :
    (Pair.mk r str inner).str = str := rfl

theorem offsetPair_rule (o : Offset) : (offsetPair o).rule = .offset := rfl

theorem channelsPair_rule (cs : List Channel) :
    (channelsPair cs).rule = .channels := rfl

theorem endSitePair_rule (e : EndSite) : (endSitePair e).rule = .end_site := rfl

theorem jointBodyPair_rule : (j : Joint) → (jointBodyPair j).rule = .joint_body
  | .mk _ _ _ _ => rfl

theorem build_channels (cs : List Channel) :
    optSequence (((channelsPair cs).inner.filter (fun p => p.rule = .channel)).map
      (fun p => channelOfString p.str)) = some cs := by
  rw [channelsPair, Pair.inner]
  rw [List.filter_cons_of_neg (by simp [Pair.rule])]
  rw [List.filter_eq_self.mpr (by
    intro p hp
    simp only [List.mem_map] at hp
    obtain ⟨c, _, rfl⟩ := hp
    simp [Pair.rule])]
  rw [List.map_map]
  rw [show ((fun p => channelOfString p.str) ∘ fun c => Pair.mk .channel (channel_str c) [])
      = fun c => some c from by
    funext c
    simp [Pair.str, channelOfString_channel_str c]]
  exact optSequence_map_some cs

mutual
/-- Weight of the expected body forest dominates the builder's recursion
depth. -/
theorem weight_jointPairs_mem : (js : List Joint) → (j : Joint) → j ∈ js →
    Pair.weight (jointBodyPair j) < pairsWeight (jointPairs js)
  | j2 :: js, j, h => by
    rw [jointPairs, pairsWeight]
    rcases List.mem_cons.mp h with rfl | h
    · rw [Pair.weight]
      have : pairsWeight [jointBodyPair j] = Pair.weight (jointBodyPair j) + 0 := by
        rw [pairsWeight, pairsWeight]
      omega
    · have := weight_jointPairs_mem js j h
      omega
end

theorem weight_children_lt (n : String) (o : Offset) (cs : List Channel)
    (ch : JointChildren) :
    pairsWeight (childPairs ch) < Pair.weight (jointBodyPair (.mk n o cs ch)) := by
  rw [jointBodyPair, Pair.weight, pairsWeight, pairsWeight, pairsWeight]
  omega

theorem jointPairs_rule : ∀ js : List Joint, ∀ q ∈ jointPairs js, q.rule = .joint := by
  intro js
  induction js with
  | nil => intro q hq; simp [jointPairs] at hq
  | cons a b ih =>
    intro q hq
    rw [jointPairs] at hq
    rcases List.mem_cons.mp hq with rfl | hq
    · rfl
    · exact ih q hq

theorem jointsWF_mem : ∀ js : List Joint, jointsWF js = true →
    ∀ j ∈ js, jointWF j = true := by
  intro js
  induction js with
  | nil => intro _ j hj; simp at hj
  | cons a b ih =>
    intro h j hj
    rw [jointsWF] at h
    simp only [Bool.and_eq_true] at h
    rcases List.mem_cons.mp hj with rfl | hj
    · exact h.1
    · exact ih h.2 j hj

theorem build_joints_map (f : Nat)
    (H : ∀ jc : Joint, jointWF jc = true → Pair.weight (jointBodyPair jc) < f →
      parse_joint f (jointBodyPair jc).inner = some jc) :
    ∀ js : List Joint, jointsWF js = true →
    (∀ jc ∈ js, Pair.weight (jointBodyPair jc) < f) →
    (jointPairs js).map (fun p =>
      match findRule .joint_body p.inner with
      | none => none
      | some (body, _) => parse_joint f body.inner) = js.map some := by
  intro js
  induction js with
  | nil => intro _ _; rfl
  | cons a b ih =>
    intro hwf hwt
    rw [jointsWF] at hwf
    simp only [Bool.and_eq_true] at hwf
    rw [jointPairs, List.map_cons, List.map_cons]
    congr 1
    · simp only [Pair.inner, findRule_cons, rule_mk, jointBodyPair_rule,
        if_true, eq_self_iff_true, ite_true]
      have := H a hwf.1 (hwt a (by simp))
      rw [show (jointBodyPair a).inner =
          (match jointBodyPair a with | Pair.mk _ _ i => i) from rfl] at this
      exact this
    · exact ih hwf.2 (fun jc hjc => hwt jc (by simp [hjc]))

theorem build_joint : ∀ fuel : Nat, ∀ j : Joint, jointWF j = true →
    Pair.weight (jointBodyPair j) < fuel →
    parse_joint fuel (jointBodyPair j).inner = some j := by
  intro fuel
  induction fuel using Nat.strong_induction_on with
  | _ fuel ih =>
    match fuel with
    | 0 =>
      intro j _ hw
      omega
    | f + 1 =>
      rintro ⟨n, o, cs, ch⟩ hwf hw
      rw [jointWF] at hwf
      simp only [Bool.and_eq_true] at hwf
      have hwc := weight_children_lt n o cs ch
      rw [show (jointBodyPair (.mk n o cs ch)).inner =
          Pair.mk .identifier n [] :: offsetPair o :: channelsPair cs :: childPairs ch
          from rfl]
      rw [parse_joint]
      simp only [findRule_cons, rule_mk, offsetPair_rule, channelsPair_rule,
        parse_offset_offsetPair, reduceCtorEq, if_true, if_false,
        eq_self_iff_true, ite_false, ite_true]
      cases ch with
      | Joints js =>
        rw [childWF] at hwf
        simp only [Bool.and_eq_true, Bool.not_eq_true'] at hwf
        obtain ⟨hne0, hjswf⟩ := hwf.2
        have hwts : ∀ jc ∈ js, Pair.weight (jointBodyPair jc) < f := by
          intro jc hjc
          have h1 := weight_jointPairs_mem js jc hjc
          rw [show childPairs (.Joints js) = jointPairs js from rfl] at hwc
          omega
        simp only [childPairs]
        rw [List.filter_eq_self.mpr (fun p hp => by
          simp [jointPairs_rule js p hp])]
        rw [build_joints_map f (fun jc h1 h2 => ih f (by omega) jc h1 h2)
          js hjswf hwts]
        simp only [optSequence_map_some]
        have hlenpos : 0 < js.length := by
          cases js with
          | nil => simp at hne0
          | cons a b => simp
        rw [if_pos hlenpos]
        simp only [build_channels]
        simp [Pair.str]
      | EndSite e =>
        simp only [childPairs]
        rw [List.filter_cons_of_neg (by simp [endSitePair, rule_mk]),
          List.filter_nil, List.map_nil]
        simp only [show optSequence ([] : List (Option Joint)) = some [] from rfl]
        rw [if_neg (by simp)]
        rw [show end_site_children [endSitePair e] = some (.EndSite e) from by
          rw [end_site_children]
          simp only [findRule_cons, endSitePair_rule, eq_self_iff_true, ite_true]
          rw [show (endSitePair e).inner = [offsetPair e.offset] from rfl]
          simp only [findRule_cons, offsetPair_rule, eq_self_iff_true, ite_true,
            parse_offset_offsetPair]]
        simp only [build_channels]
        simp [Pair.str]

theorem hierPair_rule (j : Joint) : (hierPair j).rule = .hierarchy := rfl

theorem motionPair_rule (m : Motion) : (motionPair m).rule = .motion := rfl

theorem floatPair_rule (d : Dec) : (floatPair d).rule = .float := rfl

theorem parseU32_fmtNat {n : Nat} (h : n < 2 ^ 32) : parseU32 (fmtNat n) = some n := by
  rw [parseU32, fmtNat]
  rw [if_pos ⟨by rw [str_data_mk]; exact natToChars_ne_nil n,
    by rw [str_data_mk]; exact natToChars_all_digit n,
    by rw [str_data_mk, natOfChars_natToChars]; exact h⟩]
  rw [str_data_mk, natOfChars_natToChars]

theorem build_floats (ds : List Dec) :
    optSequence (((ds.map floatPair).filter (fun p => p.rule = .float)).map
      (fun p => decOfChars p.str.data)) = some ds := by
  rw [List.filter_eq_self.mpr (by
    intro p hp
    simp only [List.mem_map] at hp
    obtain ⟨d, _, rfl⟩ := hp
    simp [floatPair_rule])]
  rw [List.map_map]
  rw [show ((fun p => decOfChars p.str.data) ∘ floatPair) = fun d => some d from by
    funext d
    simp [Function.comp, decOfChars_floatPair]]
  exact optSequence_map_some ds

theorem pairsWeight_nil : pairsWeight [] = 0 := rfl

theorem pairsWeight_cons (p : Pair) (ps : List Pair) :
    pairsWeight (p :: ps) = p.weight + pairsWeight ps := by
  rw [pairsWeight]

theorem weight_mk (r : Rule) (str : String) (inner : List Pair) :
    (Pair.mk r str inner).weight = 1 + pairsWeight inner := by
  rw [Pair.weight]

theorem build_docForest (b : Bvh)
    (hwf : jointWF b.hierarchy.root = true)
    (hnf : b.motion.num_frames < 2 ^ 32) :
    buildBvh (docForest b) = some b := by
  obtain ⟨⟨root⟩, nf, ft, fd⟩ := b
  simp only at hwf hnf
  rw [show docForest ⟨⟨root⟩, nf, ft, fd⟩ =
      [Pair.mk .bvh "" [Pair.mk .hierarchy "" [Pair.mk .root_joint ""
        [jointBodyPair root]],
       Pair.mk .motion "" [Pair.mk .frames "" (Pair.mk .integer (fmtNat nf) [] ::
        floatPair ft :: fd.map floatPair)]]] from rfl]
  have hwt : Pair.weight (jointBodyPair root) <
      pairsWeight [Pair.mk .bvh "" [Pair.mk .hierarchy "" [Pair.mk .root_joint ""
        [jointBodyPair root]],
       Pair.mk .motion "" [Pair.mk .frames "" (Pair.mk .integer (fmtNat nf) [] ::
        floatPair ft :: fd.map floatPair)]]] + 1 := by
    simp only [pairsWeight_cons, pairsWeight_nil, weight_mk]
    omega
  rw [buildBvh]
  simp only [Pair.inner, findRule_cons, rule_mk, jointBodyPair_rule,
    floatPair_rule, reduceCtorEq, if_true, if_false, eq_self_iff_true,
    ite_false, ite_true]
  have hb := build_joint _ root hwf hwt
  rw [show (jointBodyPair root).inner =
      (match jointBodyPair root with | Pair.mk _ _ i => i) from rfl] at hb
  rw [hb]
  simp only [str_mk_pair, parseU32_fmtNat hnf, parse_f64_floatPair, build_floats]

/-- The spec's data-model invariants on a `Bvh` value: identifier names,
non-empty `Joints` variants, `num_frames` a `u32` value, and the
frame-count identity. -/
def wellFormed (b : Bvh) : Bool :=
  jointWF b.hierarchy.root && decide (b.motion.num_frames < 2 ^ 32) &&
    decide (b.motion.frame_data.length =
      b.motion.num_frames * b.hierarchy.root.total_channels)

theorem wellFormed_parts {b : Bvh} (h : wellFormed b = true) :
    jointWF b.hierarchy.root = true ∧ b.motion.num_frames < 2 ^ 32 ∧
      b.motion.frame_data.length =
        b.motion.num_frames * b.hierarchy.root.total_channels := by
  rw [wellFormed] at h
  simp only [Bool.and_eq_true, decide_eq_true_eq] at h
  exact ⟨h.1.1, h.1.2, h.2⟩

theorem wellFormed_no_crash {b : Bvh} (h : wellFormed b = true) :
    b.hierarchy.root.total_channels ≠ 0 ∨ b.motion.frame_data = [] := by
  obtain ⟨-, -, h3⟩ := wellFormed_parts h
  by_cases hz : b.hierarchy.root.total_channels = 0
  · right
    rw [hz, Nat.mul_zero] at h3
    exact List.length_eq_zero.mp h3
  · exact Or.inl hz

/-- Full round trip: serializing a well-formed value does not crash, and
parsing the produced text returns exactly the original value. -/
theorem parse_serialize (b : Bvh) (h : wellFormed b = true) :
    serializeStr b = some ⟨outChars (serialize b)⟩ ∧
      parse ⟨outChars (serialize b)⟩ = .ok b := by
  obtain ⟨h1, h2, _⟩ := wellFormed_parts h
  have hch := wellFormed_no_crash h
  constructor
  · rw [serializeStr, if_neg (by
      rw [serialize_crashed, motion_rows_crashed hch]
      simp)]
  · simp only [parse, tokenize_serialize b h1 hch, build_docForest b h1 h2]

/-! ## Channel-count identity (spec §8) -/

mutual
theorem total_eq_dfs_joint : ∀ j : Joint,
    j.total_channels = ((Joint.dfs j).map (fun x => x.channels.length)).sum % 2 ^ 32
  | .mk n o cs ch => by
    rw [Joint.total_channels, Joint.dfs, List.map_cons, List.sum_cons,
      Joint.channels, total_eq_dfs_children ch, ← Nat.add_mod]
theorem total_eq_dfs_children : ∀ ch : JointChildren,
    ch.total_channels =
      ((JointChildren.dfs ch).map (fun x => x.channels.length)).sum % 2 ^ 32
  | .Joints js => by
    rw [JointChildren.total_channels, JointChildren.dfs, total_eq_dfs_joints js]
  | .EndSite e => by
    rw [JointChildren.total_channels, JointChildren.dfs]
    simp
theorem total_eq_dfs_joints : ∀ js : List Joint,
    jointsTotalChannels js =
      ((jointsDfs js).map (fun x => x.channels.length)).sum % 2 ^ 32
  | [] => by
    rw [jointsTotalChannels, jointsDfs]
    simp
  | j :: js => by
    rw [jointsTotalChannels, jointsDfs, List.map_append, List.sum_append,
      total_eq_dfs_joint j, total_eq_dfs_joints js, ← Nat.add_mod]
end

/-! ## Sink behaviour of the serializer -/

/-- Slice a list into consecutive chunks of width `c` (fuel-bounded by the
list length, which suffices whenever `0 < c`). -/
def chunksOfGo : Nat → Nat → List α → List (List α)
  | 0, _, _ => []
  | _, _, [] => []
  | fuel + 1, c, a :: l => (a :: l).take c :: chunksOfGo fuel c ((a :: l).drop c)

/-- Consecutive chunks of width `c` (specification-side slicing of
`frame_data` into rows). -/
def chunksOf (c : Nat) (l : List α) : List (List α) := chunksOfGo l.length c l

/-- Words separated by single spaces (specification side). -/
def sepSpaces : List (List Char) → List Char
  | [] => []
  | [w] => w
  | w :: w2 :: ws => w ++ ' ' :: sepSpaces (w2 :: ws)

/-- One motion row: values space-separated, newline-terminated
(specification side). -/
def rowChars (row : List Dec) : List Char :=
  sepSpaces (row.map decChars) ++ ['\n']

theorem chunksOfGo_nil (fuel c : Nat) : chunksOfGo fuel c ([] : List α) = [] := by
  cases fuel <;> rfl

theorem chunksOfGo_fuel {c : Nat} (hc : 0 < c) :
    ∀ fuel fuel' (l : List α), l.length ≤ fuel → l.length ≤ fuel' →
      chunksOfGo fuel c l = chunksOfGo fuel' c l := by
  intro fuel
  induction fuel with
  | zero =>
    intro fuel' l h1 _
    have : l = [] := List.length_eq_zero.mp (by omega)
    subst this
    cases fuel' <;> rfl
  | succ fuel ih =>
    intro fuel' l h1 h2
    match fuel', l with
    | fuel', [] => rw [chunksOfGo_nil, chunksOfGo_nil]
    | 0, a :: l => simp at h2
    | fuel' + 1, a :: l =>
      rw [chunksOfGo, chunksOfGo]
      congr 1
      have hd : ((a :: l).drop c).length ≤ fuel := by
        simp only [List.length_drop, List.length_cons] at h1 ⊢
        omega
      have hd' : ((a :: l).drop c).length ≤ fuel' := by
        simp only [List.length_drop, List.length_cons] at h2 ⊢
        omega
      exact ih fuel' _ hd hd'

theorem chunksOf_nil (c : Nat) : chunksOf c ([] : List α) = [] := rfl

theorem chunksOf_step {c : Nat} (hc : 0 < c) (l : List α) (hl : l ≠ []) :
    chunksOf c l = l.take c :: chunksOf c (l.drop c) := by
  match l, hl with
  | a :: l, _ =>
    rw [chunksOf, chunksOf]
    rw [show (a :: l).length = (a :: l).length - 1 + 1 from by simp]
    rw [chunksOfGo]
    congr 1
    apply chunksOfGo_fuel hc
    · simp only [List.length_drop, List.length_cons]
      omega
    · exact Nat.le_refl _

theorem mod_succ_lt {i C : Nat} (h : i % C + 1 < C) : (i + 1) % C = i % C + 1 := by
  rw [Nat.add_mod, Nat.mod_eq_of_lt (show 1 < C by omega),
    Nat.mod_eq_of_lt h]

theorem motion_rows_row : ∀ (row : List Dec) (C i : Nat) (rest : List Dec),
    0 < C → i + row.length ≤ 2 ^ 32 → i % C + row.length = C →
    outChars (motion_rows C i (row ++ rest)) =
      rowChars row ++ outChars (motion_rows C (i + row.length) rest)
  | [], C, i, rest, hC, hiB, hlen => by
    have := Nat.mod_lt i hC
    simp only [List.length_nil] at hlen
    omega
  | [v], C, i, rest, hC, hiB, hlen => by
    simp only [List.length_cons, List.length_nil] at hlen hiB
    have hi : i % C = C - 1 := by omega
    have him : i % 2 ^ 32 = i := Nat.mod_eq_of_lt (by omega)
    rw [List.cons_append, List.nil_append, motion_rows_cons,
      if_neg (show ¬ C = 0 by omega),
      if_neg (show ¬ i % 2 ^ 32 % C ≠ C - 1 by rw [him]; simp [hi])]
    rw [outChars_append _ (wr_crashed _), outChars_append _ (wr_crashed _),
      outChars_wr, outChars_wr]
    simp [rowChars, sepSpaces, fmtDec, str_data_mk]
  | v :: v2 :: row', C, i, rest, hC, hiB, hlen => by
    simp only [List.length_cons] at hlen hiB
    have hlt : i % C + 1 < C := by omega
    have hne : i % C ≠ C - 1 := by omega
    have him : i % 2 ^ 32 = i := Nat.mod_eq_of_lt (by omega)
    rw [List.cons_append, motion_rows_cons, if_neg (show ¬ C = 0 by omega),
      if_pos (show i % 2 ^ 32 % C ≠ C - 1 by rw [him]; exact hne)]
    rw [outChars_append _ (wr_crashed _), outChars_append _ (wr_crashed _),
      outChars_wr, outChars_wr]
    have ih := motion_rows_row (v2 :: row') C (i + 1) rest hC
      (by simp only [List.length_cons]; omega)
      (by rw [mod_succ_lt hlt]; simp only [List.length_cons]; omega)
    rw [ih]
    rw [show i + 1 + (v2 :: row').length = i + (v :: v2 :: row').length by
      simp only [List.length_cons]; omega]
    simp [rowChars, sepSpaces, fmtDec, str_data_mk, List.append_assoc]

theorem rows_chunks : ∀ (k : Nat) (d : List Dec) (C i : Nat), 0 < C →
    i % C = 0 → i + d.length ≤ 2 ^ 32 → d.length = k * C →
    outChars (motion_rows C i d) = ((chunksOf C d).map rowChars).flatten := by
  intro k
  induction k with
  | zero =>
    intro d C i hC hi0 hB hlen
    have : d = [] := List.length_eq_zero.mp (by omega)
    subst this
    rw [motion_rows_nil, outChars_wnil, chunksOf_nil]
    rfl
  | succ k ih =>
    intro d C i hC hi0 hB hlen
    have hne : d ≠ [] := by
      intro h
      subst h
      simp at hlen
      omega
    have hCd : C ≤ d.length := by
      rw [hlen]
      calc C = 1 * C := by omega
      _ ≤ (k + 1) * C := Nat.mul_le_mul_right C (by omega)
    have htl : (d.take C).length = C := by
      rw [List.length_take]
      omega
    rw [chunksOf_step hC d hne, List.map_cons, List.flatten_cons]
    have hsplit := motion_rows_row (d.take C) C i (d.drop C) hC
      (by rw [htl]; omega)
      (by rw [hi0, htl]; omega)
    rw [List.take_append_drop] at hsplit
    rw [hsplit, htl]
    congr 1
    apply ih (d.drop C) C (i + C) hC
    · rw [Nat.add_mod_right, hi0]
    · rw [List.length_drop]
      omega
    · rw [List.length_drop, hlen]
      calc (k + 1) * C - C = k * C + C - C := by ring_nf
      _ = k * C := by omega

/-! ## Internal-consistency failures of the builder -/

theorem findRule_sublist {r : Rule} : ∀ {ps : List Pair} {p : Pair}
    {rest : List Pair}, findRule r ps = some (p, rest) → rest.Sublist ps := by
  intro ps
  induction ps with
  | nil =>
    intro p rest h
    rw [findRule] at h
    exact absurd h (by simp)
  | cons q qs ih =>
    intro p rest h
    rw [findRule_cons] at h
    by_cases hq : q.rule = r
    · rw [if_pos hq] at h
      injection h with h'
      injection h' with h1 h2
      rw [← h2]
      exact (List.Sublist.refl qs).cons q
    · rw [if_neg hq] at h
      exact (ih h).cons q

theorem findRule_none_iff {r : Rule} : ∀ ps : List Pair,
    findRule r ps = none ↔ ∀ p ∈ ps, p.rule ≠ r := by
  intro ps
  induction ps with
  | nil => simp [findRule]
  | cons q qs ih =>
    rw [findRule_cons]
    by_cases hq : q.rule = r
    · rw [if_pos hq]
      simp [hq]
    · rw [if_neg hq, ih]
      simp [hq]

theorem findRule_none_of_sublist {r : Rule} {ps qs : List Pair}
    (h : findRule r ps = none) (hs : qs.Sublist ps) : findRule r qs = none := by
  rw [findRule_none_iff] at h ⊢
  exact fun p hp => h p (hs.subset hp)

/-- A `joint_body` forest holding neither a nested `joint` pair nor an
`end_site` pair defeats `parse_joint`: the `else` branch's `unwrap`
(lib.rs line 118) panics, modelled as `none`. -/
theorem parse_joint_no_children : ∀ (fuel : Nat) (ps : List Pair),
    ps.filter (fun p => p.rule = Rule.joint) = [] →
    findRule .end_site ps = none →
    parse_joint fuel ps = none := by
  intro fuel ps hfil hes
  match fuel with
  | 0 => rfl
  | f + 1 =>
    rw [parse_joint]
    rcases hid : findRule .identifier ps with _ | ⟨np, ps1⟩
    · simp only [hid]
    · simp only [hid]
      rcases hoff : findRule .offset ps1 with _ | ⟨op, ps2⟩
      · simp only [hoff]
      · simp only [hoff]
        rcases hpo : parse_offset op.inner with _ | o
        · simp only [hpo]
        · simp only [hpo]
          rcases hch : findRule .channels ps2 with _ | ⟨cp, ps3⟩
          · simp only [hch]
          · simp only [hch]
            have hsub : ps3.Sublist ps :=
              ((findRule_sublist hch).trans (findRule_sublist hoff)).trans
                (findRule_sublist hid)
            have hfil3 : ps3.filter (fun p => p.rule = Rule.joint) = [] :=
              List.sublist_nil.mp (hfil ▸ hsub.filter _)
            have hes3 : findRule .end_site ps3 = none :=
              findRule_none_of_sublist hes hsub
            rw [hfil3]
            simp only [List.map_nil, optSequence, List.length_nil,
              Nat.lt_irrefl, if_false, end_site_children, hes3]

/-- A builder failure after successful tokenization is a crash of `parse`
(the `unwrap` chain of lib.rs lines 83–95), not a returned error. -/
theorem parse_crash_of_build_none (s : String) (forest : List Pair)
    (ht : tokenize s = .ok forest) (hb : buildBvh forest = none) :
    parse s = PResult.crash := by
  rw [parse]
  simp only [ht, hb]

/-! ## Concrete documents -/

/-- The spec §8 minimal document. -/
def minimalDoc : String :=
  "HIERARCHY\nROOT Hips\n\x7b\nOFFSET 0 0 0\nCHANNELS 3 Xposition Yposition Zposition\nEnd Site\n\x7b\nOFFSET 0 0 1\n\x7d\n\x7d\nMOTION\nFrames: 1\nFrame Time: 0.0333333\n0 0 0\n"

/-- The value the spec §8 requires `parse` to produce for `minimalDoc`. -/
def minimalBvh : Bvh :=
  ⟨⟨.mk "Hips" ⟨⟨0, 0⟩, ⟨0, 0⟩, ⟨0, 0⟩⟩ [.XPosition, .YPosition, .ZPosition]
      (.EndSite ⟨⟨⟨0, 0⟩, ⟨0, 0⟩, ⟨1, 0⟩⟩⟩)⟩,
    ⟨1, ⟨333333, 7⟩, [⟨0, 0⟩, ⟨0, 0⟩, ⟨0, 0⟩]⟩⟩

/-- `minimalDoc` with a `Frames:` count of `2^32` (too large for `u32`):
it tokenizes, but `parse::<u32>().unwrap()` panics. -/
def overflowDoc : String :=
  "HIERARCHY\nROOT Hips\n\x7b\nOFFSET 0 0 0\nCHANNELS 3 Xposition Yposition Zposition\nEnd Site\n\x7b\nOFFSET 0 0 1\n\x7d\n\x7d\nMOTION\nFrames: 4294967296\nFrame Time: 0.0333333\n0 0 0\n"

/-- The token forest of `overflowDoc` (it tokenizes successfully). -/
def overflowForest : List Pair :=
  match tokenize overflowDoc with
  | .ok f => f
  | .error _ => []

/-- `minimalDoc` with `Frames: 2` but still a single row of three values:
`frame_data.length` (3) disagrees with `num_frames * total_channels` (6),
and `parse` succeeds regardless. -/
def mismatchDoc : String :=
  "HIERARCHY\nROOT Hips\n\x7b\nOFFSET 0 0 0\nCHANNELS 3 Xposition Yposition Zposition\nEnd Site\n\x7b\nOFFSET 0 0 1\n\x7d\n\x7d\nMOTION\nFrames: 2\nFrame Time: 0.0333333\n0 0 0\n"

/-- The token forest of `mismatchDoc` (it tokenizes successfully). -/
def mismatchForest : List Pair :=
  match tokenize mismatchDoc with
  | .ok f => f
  | .error _ => []

/-- The value `mismatchDoc` parses to. -/
def mismatchBvh : Bvh :=
  match parse mismatchDoc with
  | .ok b => b
  | _ => minimalBvh

/-- A second `Frames:`-overflow document (`Frames: 10000000000`). -/
def overflowDoc2 : String :=
  "HIERARCHY\nROOT Hips\n\x7b\nOFFSET 0 0 0\nCHANNELS 3 Xposition Yposition Zposition\nEnd Site\n\x7b\nOFFSET 0 0 1\n\x7d\n\x7d\nMOTION\nFrames: 10000000000\nFrame Time: 0.0333333\n0 0 0\n"

/-- The token forest of `overflowDoc2` (it tokenizes successfully). -/
def overflowForest2 : List Pair :=
  match tokenize overflowDoc2 with
  | .ok f => f
  | .error _ => []

/-- Three nesting levels (`A / B / D`) with sibling joints at two levels
(`D, E` under `B`; `B, C` under `A`). -/
def multiDoc : String :=
  "HIERARCHY\nROOT A\n\x7b\nOFFSET 0 0 0\nCHANNELS 2 Xposition Yposition\nJOINT B\n\x7b\nOFFSET 0 0 0\nCHANNELS 1 Xrotation\nJOINT D\n\x7b\nOFFSET 0 0 0\nCHANNELS 1 Yrotation\nEnd Site\n\x7b\nOFFSET 0 0 0\n\x7d\n\x7d\nJOINT E\n\x7b\nOFFSET 0 0 0\nCHANNELS 1 Zrotation\nEnd Site\n\x7b\nOFFSET 0 0 0\n\x7d\n\x7d\n\x7d\nJOINT C\n\x7b\nOFFSET 0 0 0\nCHANNELS 1 Zposition\nEnd Site\n\x7b\nOFFSET 0 0 0\n\x7d\n\x7d\n\x7d\nMOTION\nFrames: 1\nFrame Time: 0.1\n0 0 0 0 0 0\n"

/-- The value `multiDoc` parses to. -/
def multiBvh : Bvh :=
  match parse multiDoc with
  | .ok b => b
  | _ => minimalBvh

/-- `minimalDoc` truncated before its `MOTION` section. -/
def noMotionDoc : String :=
  "HIERARCHY\nROOT Hips\n\x7b\nOFFSET 0 0 0\nCHANNELS 3 Xposition Yposition Zposition\nEnd Site\n\x7b\nOFFSET 0 0 1\n\x7d\n\x7d\n"

/-- `minimalDoc` with the `CHANNELS` count lowered to `2` while three
channel names stay listed. -/
def chanMismatchDoc : String :=
  "HIERARCHY\nROOT Hips\n\x7b\nOFFSET 0 0 0\nCHANNELS 2 Xposition Yposition Zposition\nEnd Site\n\x7b\nOFFSET 0 0 1\n\x7d\n\x7d\nMOTION\nFrames: 1\nFrame Time: 0.0333333\n0 0 0\n"

/-- A joint with exactly `2 ^ 32` channels: `channels.len() as u32`
truncates to `0`. -/
def wideJoint : Joint :=
  .mk "A" ⟨⟨0, 0⟩, ⟨0, 0⟩, ⟨0, 0⟩⟩ (List.replicate (2 ^ 32) Channel.XPosition)
    (.EndSite ⟨⟨⟨0, 0⟩, ⟨0, 0⟩, ⟨0, 0⟩⟩⟩)

/-- A value around `wideJoint` whose frame-data length equals
`num_frames` times the ideal (unbounded) channel count. -/
def wideBvh : Bvh :=
  ⟨⟨wideJoint⟩, ⟨1, ⟨1, 1⟩, List.replicate (2 ^ 32) ⟨0, 0⟩⟩⟩

theorem wideJoint_total : wideJoint.total_channels = 0 := by
  rw [wideJoint, Joint.total_channels, List.length_replicate]
  rw [show JointChildren.total_channels
    (.EndSite ⟨⟨⟨0, 0⟩, ⟨0, 0⟩, ⟨0, 0⟩⟩⟩) = 0 from rfl]
  simp [Nat.mod_self]

theorem wideJoint_sum :
    ((Joint.dfs wideJoint).map (fun x => x.channels.length)).sum = 2 ^ 32 := by
  rw [wideJoint, Joint.dfs]
  rw [show JointChildren.dfs (.EndSite ⟨⟨⟨0, 0⟩, ⟨0, 0⟩, ⟨0, 0⟩⟩⟩) = []
    from rfl]
  rw [List.map_cons, List.map_nil, List.sum_cons, List.sum_nil]
  rw [show (Joint.mk "A" ⟨⟨0, 0⟩, ⟨0, 0⟩, ⟨0, 0⟩⟩
      (List.replicate (2 ^ 32) Channel.XPosition)
      (.EndSite ⟨⟨⟨0, 0⟩, ⟨0, 0⟩, ⟨0, 0⟩⟩⟩)).channels =
    List.replicate (2 ^ 32) Channel.XPosition from rfl]
  rw [List.length_replicate, Nat.add_zero]

theorem wideBvh_crash : serializeStr wideBvh = none := by
  have hcr : (serialize wideBvh).crashed = true := by
    rw [serialize_crashed,
      show wideBvh.hierarchy.root = wideJoint from rfl, wideJoint_total,
      show wideBvh.motion.frame_data =
        List.replicate (2 ^ 32) (⟨0, 0⟩ : Dec) from rfl]
    rw [show (2 : Nat) ^ 32 = (2 ^ 32 - 1) + 1 from by norm_num,
      List.replicate_succ, motion_rows_cons, if_pos rfl]
    rw [seq_crashed, wr_crashed]
    rfl
  rw [serializeStr, hcr, if_pos rfl]

/-- A well-formed value with a positive frame count, no channels anywhere
and no frame data: its serialization stops after the motion headers. -/
def headersOnlyBvh : Bvh :=
  ⟨⟨.mk "Root" ⟨⟨0, 0⟩, ⟨0, 0⟩, ⟨0, 0⟩⟩ []
      (.EndSite ⟨⟨⟨0, 0⟩, ⟨0, 0⟩, ⟨0, 0⟩⟩⟩)⟩,
    ⟨5, ⟨1, 1⟩, []⟩⟩

/-! ## Matcher soundness: what a successful tokenization guarantees -/

mutual
/-- The `JointChildren` invariant, recursively: every `Joints` variant in
the tree is non-empty (spec §3). -/
def childrenInv : Joint → Bool
  | .mk _ _ _ ch => childrenInvC ch
def childrenInvC : JointChildren → Bool
  | .Joints js => !js.isEmpty && childrenInvL js
  | .EndSite _ => true
def childrenInvL : List Joint → Bool
  | [] => true
  | j :: js => childrenInv j && childrenInvL js
end

mutual
/-- Joint names in depth-first pre-order, as token words (document
order of the names in the serialized/parsed text). -/
def preNames : Joint → List W
  | .mk n _ _ ch => n.data :: preNamesC ch
def preNamesC : JointChildren → List W
  | .Joints js => preNamesL js
  | .EndSite _ => []
def preNamesL : List Joint → List W
  | [] => []
  | j :: js => preNames j ++ preNamesL js
end

theorem weight_eq : ∀ p : Pair, p.weight = 1 + pairsWeight p.inner
  | .mk _ _ _ => rfl

theorem weight_le_pairsWeight_of_mem : ∀ {ps : List Pair} {p : Pair},
    p ∈ ps → p.weight ≤ pairsWeight ps := by
  intro ps
  induction ps with
  | nil => intro p h; simp at h
  | cons q qs ih =>
    intro p h
    rw [pairsWeight_cons]
    rcases List.mem_cons.mp h with rfl | h
    · omega
    · have := ih h
      omega

theorem map_isSome_exists {f : α → Option β} : ∀ l : List α,
    (∀ a ∈ l, (f a).isSome = true) → ∃ ds : List β, l.map f = ds.map some := by
  intro l
  induction l with
  | nil => intro _; exact ⟨[], rfl⟩
  | cons a l ih =>
    intro h
    obtain ⟨b, hb⟩ := Option.isSome_iff_exists.mp (h a (by simp))
    obtain ⟨ds, hds⟩ := ih (fun x hx => h x (by simp [hx]))
    exact ⟨b :: ds, by simp [hb, hds]⟩

theorem expectTok_sound {t : W} : ∀ {ws ws' : List W},
    expectTok t ws = .ok ws' → ws = t :: ws' := by
  intro ws ws' h
  match ws with
  | [] => exact absurd h (by rw [expectTok]; simp)
  | w :: ws1 =>
    rw [expectTok] at h
    by_cases hw : w = t
    · rw [if_pos hw] at h
      injection h with h
      rw [hw, h]
    · rw [if_neg hw] at h
      exact absurd h (by simp)

theorem matchLeaf_sound {r : Rule} {good : W → Bool} {what : String} :
    ∀ {ws : List W} {p : Pair} {ws' : List W},
    matchLeaf r good what ws = .ok (p, ws') →
    ∃ w, ws = w :: ws' ∧ good w = true ∧ p = .mk r ⟨w⟩ [] := by
  intro ws p ws' h
  match ws with
  | [] => exact absurd h (by rw [matchLeaf]; simp)
  | w :: ws1 =>
    rw [matchLeaf] at h
    by_cases hw : good w = true
    · rw [if_pos hw] at h
      injection h with h
      injection h with h1 h2
      exact ⟨w, by rw [h2], hw, h1.symm⟩
    · rw [if_neg hw] at h
      exact absurd h (by simp)

theorem matchChannelN_sound : ∀ (n : Nat) {ws : List W} {cs : List Pair}
    {ws' : List W}, matchChannelN n ws = .ok (cs, ws') →
    ∃ pre, ws = pre ++ ws' ∧
      ∀ q ∈ cs, q.rule = Rule.channel ∧ (channelOfString q.str).isSome = true := by
  intro n
  induction n with
  | zero =>
    intro ws cs ws' h
    rw [matchChannelN] at h
    injection h with h
    injection h with h1 h2
    exact ⟨[], by rw [h2]; rfl, by rw [← h1]; simp⟩
  | succ n ih =>
    intro ws cs ws' h
    rw [matchChannelN] at h
    rcases hc : matchChannel ws with e | ⟨p, ws1⟩
    · simp [hc] at h
    · simp only [hc] at h
      rcases hn : matchChannelN n ws1 with e | ⟨ps, ws2⟩
      · simp [hn] at h
      · simp only [hn] at h
        injection h with h
        injection h with h1 h2
        obtain ⟨w, hw1, hw2, hw3⟩ := matchLeaf_sound hc
        obtain ⟨pre, hpre, hall⟩ := ih hn
        subst h2
        refine ⟨w :: pre, by rw [hw1, hpre]; rfl, ?_⟩
        intro q hq
        rw [← h1] at hq
        rcases List.mem_cons.mp hq with rfl | hq
        · rw [hw3]
          refine ⟨rfl, ?_⟩
          rw [show (Pair.mk Rule.channel ⟨w⟩ []).str = ⟨w⟩ from rfl]
          exact hw2
        · exact hall q hq

theorem matchOffsetBlock_sound : ∀ {ws : List W} {p : Pair} {ws' : List W},
    matchOffsetBlock ws = .ok (p, ws') →
    ∃ pre, ws = pre ++ ws' ∧ p.rule = Rule.offset ∧
      ∃ o, parse_offset p.inner = some o := by
  intro ws p ws' h
  rw [matchOffsetBlock] at h
  rcases he : expectTok "OFFSET".data ws with e | ws1
  · simp [he] at h
  simp only [he] at h
  rcases h1 : matchFloat ws1 with e | ⟨p1, ws2⟩
  · simp [h1] at h
  simp only [h1] at h
  rcases h2 : matchFloat ws2 with e | ⟨p2, ws3⟩
  · simp [h2] at h
  simp only [h2] at h
  rcases h3 : matchFloat ws3 with e | ⟨p3, ws4⟩
  · simp [h3] at h
  simp only [h3] at h
  injection h with h
  injection h with hp hws
  obtain ⟨w1, hw1, hg1, hp1⟩ := matchLeaf_sound h1
  obtain ⟨w2, hw2, hg2, hp2⟩ := matchLeaf_sound h2
  obtain ⟨w3, hw3, hg3, hp3⟩ := matchLeaf_sound h3
  subst hws
  refine ⟨"OFFSET".data :: w1 :: w2 :: w3 :: [],
    by rw [expectTok_sound he, hw1, hw2, hw3]; rfl, by rw [← hp]; rfl, ?_⟩
  obtain ⟨d1, hd1⟩ := Option.isSome_iff_exists.mp hg1
  obtain ⟨d2, hd2⟩ := Option.isSome_iff_exists.mp hg2
  obtain ⟨d3, hd3⟩ := Option.isSome_iff_exists.mp hg3
  refine ⟨⟨d1, d2, d3⟩, ?_⟩
  rw [← hp, hp1, hp2, hp3]
  rw [show (Pair.mk Rule.offset "" [Pair.mk .float ⟨w1⟩ [],
    Pair.mk .float ⟨w2⟩ [], Pair.mk .float ⟨w3⟩ []]).inner =
    [Pair.mk .float ⟨w1⟩ [], Pair.mk .float ⟨w2⟩ [], Pair.mk .float ⟨w3⟩ []]
    from rfl]
  rw [parse_offset, parse_f64]
  simp only [findRule_cons, rule_mk, if_true, eq_self_iff_true, ite_true,
    str_mk_pair, str_data_mk, hd1]
  rw [parse_f64]
  simp only [findRule_cons, rule_mk, if_true, eq_self_iff_true, ite_true,
    str_mk_pair, str_data_mk, hd2]
  rw [parse_f64]
  simp only [findRule_cons, rule_mk, if_true, eq_self_iff_true, ite_true,
    str_mk_pair, str_data_mk, hd3]

theorem matchChannelsBlock_sound : ∀ {ws : List W} {p : Pair} {ws' : List W},
    matchChannelsBlock ws = .ok (p, ws') →
    ∃ pre, ws = pre ++ ws' ∧ p.rule = Rule.channels ∧
      ∃ cs, optSequence ((p.inner.filter (fun q => q.rule = Rule.channel)).map
        (fun q => channelOfString q.str)) = some cs := by
  intro ws p ws' h
  rw [matchChannelsBlock] at h
  rcases he : expectTok "CHANNELS".data ws with e | ws1
  · simp [he] at h
  simp only [he] at h
  rcases h1 : matchInteger ws1 with e | ⟨ip, ws2⟩
  · simp [h1] at h
  simp only [h1] at h
  rcases h2 : matchChannelN (natOfChars ip.str.data) ws2 with e | ⟨cps, ws3⟩
  · simp [h2] at h
  simp only [h2] at h
  injection h with h
  injection h with hp hws
  obtain ⟨iw, hiw1, hiw2, hiw3⟩ := matchLeaf_sound h1
  obtain ⟨pre2, hpre2, hall⟩ := matchChannelN_sound _ h2
  subst hws
  refine ⟨"CHANNELS".data :: iw :: pre2,
    by rw [expectTok_sound he, hiw1, hpre2]; rfl, by rw [← hp]; rfl, ?_⟩
  rw [← hp]
  rw [show (Pair.mk Rule.channels "" (ip :: cps)).inner = ip :: cps from rfl]
  rw [List.filter_cons_of_neg (by rw [hiw3]; simp [rule_mk])]
  rw [List.filter_eq_self.mpr (fun q hq => by simp [(hall q hq).1])]
  obtain ⟨cs, hcs⟩ := map_isSome_exists cps (fun q hq => (hall q hq).2)
  exact ⟨cs, by rw [hcs, optSequence_map_some]⟩

theorem matchEndSite_sound : ∀ {ws : List W} {p : Pair} {ws' : List W},
    matchEndSite ws = .ok (p, ws') →
    ∃ pre, ws = pre ++ ws' ∧ p.rule = Rule.end_site ∧
      ∃ o, end_site_children [p] = some (JointChildren.EndSite ⟨o⟩) := by
  intro ws p ws' h
  rw [matchEndSite] at h
  rcases he1 : expectTok "End".data ws with e | ws1
  · simp [he1] at h
  simp only [he1] at h
  rcases he2 : expectTok "Site".data ws1 with e | ws2
  · simp [he2] at h
  simp only [he2] at h
  rcases he3 : expectTok "\x7b".data ws2 with e | ws3
  · simp [he3] at h
  simp only [he3] at h
  rcases ho : matchOffsetBlock ws3 with e | ⟨op, ws4⟩
  · simp [ho] at h
  simp only [ho] at h
  rcases he4 : expectTok "\x7d".data ws4 with e | ws5
  · simp [he4] at h
  simp only [he4] at h
  injection h with h
  injection h with hp hws
  obtain ⟨preO, hpreO, hor, o, hoff⟩ := matchOffsetBlock_sound ho
  subst hws
  refine ⟨"End".data :: "Site".data :: "\x7b".data :: (preO ++ ["\x7d".data]), ?_, by rw [← hp]; rfl, ?_⟩
  · rw [expectTok_sound he1, expectTok_sound he2, expectTok_sound he3, hpreO,
      expectTok_sound he4]
    simp
  · refine ⟨o, ?_⟩
    rw [end_site_children, ← hp]
    simp only [findRule_cons, rule_mk, if_true, eq_self_iff_true, ite_true]
    rw [show (Pair.mk Rule.end_site "" [op]).inner = [op] from rfl]
    simp only [show findRule Rule.offset [op] = some (op, []) from by
      rw [findRule_cons, if_pos hor], hoff]

theorem sublist_app_mid {l B : List α} (A C : List α) (h : l.Sublist B) :
    l.Sublist (A ++ B ++ C) :=
  (h.trans (List.sublist_append_right A B)).trans
    (List.sublist_append_left (A ++ B) C)

/-- Soundness of the joint matchers: a successful match consumes a prefix
of the words, its pair carries the right rule, and — crucially — the tree
builder succeeds on the matched pair (given enough fuel), producing a joint
that satisfies the `JointChildren` invariant and whose pre-order names form
a sublist of the consumed words (document order). -/
theorem match_sound : ∀ fuel : Nat,
    (∀ (ws : List W) (p : Pair) (ws' : List W),
      matchJointBody fuel ws = .ok (p, ws') →
      ∃ pre, ws = pre ++ ws' ∧ p.rule = Rule.joint_body ∧
        ∀ bfuel : Nat, pairsWeight p.inner < bfuel →
          ∃ j, parse_joint bfuel p.inner = some j ∧ childrenInv j = true ∧
            (preNames j).Sublist pre) ∧
    (∀ (ws : List W) (ps : List Pair) (ws' : List W),
      matchJoints fuel ws = .ok (ps, ws') →
      ∃ pre, ws = pre ++ ws' ∧ ps ≠ [] ∧ (∀ q ∈ ps, q.rule = Rule.joint) ∧
        ∀ bfuel : Nat, (∀ q ∈ ps, Pair.weight q ≤ bfuel + 1) →
          ∃ js : List Joint, js ≠ [] ∧ childrenInvL js = true ∧
            (preNamesL js).Sublist pre ∧
            ps.map (fun q => match findRule .joint_body q.inner with
              | none => none
              | some (body, _) => parse_joint bfuel body.inner) = js.map some) := by
  intro fuel
  induction fuel using Nat.strong_induction_on with
  | _ fuel ih =>
    match fuel with
    | 0 =>
      constructor
      · intro ws p ws' h
        exact absurd h (by rw [matchJointBody]; simp)
      · intro ws ps ws' h
        exact absurd h (by rw [matchJoints]; simp)
    | f + 1 =>
      have ihb := (ih f (by omega)).1
      have ihj := (ih f (by omega)).2
      constructor
      · intro ws p ws' h
        rw [matchJointBody] at h
        rcases h1 : matchIdent ws with e | ⟨namep, ws1⟩
        · simp [h1] at h
        simp only [h1] at h
        rcases h2 : expectTok "\x7b".data ws1 with e | ws2
        · simp [h2] at h
        simp only [h2] at h
        rcases h3 : matchOffsetBlock ws2 with e | ⟨off, ws3⟩
        · simp [h3] at h
        simp only [h3] at h
        rcases h4 : matchChannelsBlock ws3 with e | ⟨chs, ws4⟩
        · simp [h4] at h
        simp only [h4] at h
        obtain ⟨w_n, hn1, hn2, hn3⟩ := matchLeaf_sound h1
        obtain ⟨preO, hpreO, hOr, o, hoffB⟩ := matchOffsetBlock_sound h3
        obtain ⟨preC, hpreC, hCr, cs, hchsB⟩ := matchChannelsBlock_sound h4
        by_cases hj : ws4.head? = some "JOINT".data
        · rw [if_pos hj] at h
          rcases h5 : matchJoints f ws4 with e | ⟨children, ws5⟩
          · simp [h5] at h
          simp only [h5] at h
          rcases h6 : expectTok "\x7d".data ws5 with e | ws6
          · simp [h6] at h
          simp only [h6] at h
          injection h with h
          injection h with hp hws
          subst hws
          subst hp
          obtain ⟨preJ, hpreJ, hne, hrules, hbuild⟩ := ihj ws4 children ws5 h5
          refine ⟨w_n :: "\x7b".data :: (preO ++ preC ++ preJ ++ ["\x7d".data]),
            ?_, rfl, ?_⟩
          · rw [hn1, expectTok_sound h2, hpreO, hpreC, hpreJ, expectTok_sound h6]
            simp
          · intro bfuel hbf
            rw [show (Pair.mk Rule.joint_body ""
                (namep :: off :: chs :: children)).inner =
                namep :: off :: chs :: children from rfl] at hbf ⊢
            match bfuel, hbf with
            | bf + 1, hbf =>
              have hwts : ∀ q ∈ children, Pair.weight q ≤ bf + 1 := by
                intro q hq
                have h1 := weight_le_pairsWeight_of_mem hq
                simp only [pairsWeight_cons] at hbf
                omega
              obtain ⟨js, hjne, hjinv, hjnames, hjmap⟩ := hbuild bf hwts
              have hjlen : 0 < js.length := List.length_pos.mpr hjne
              have hemp : js.isEmpty = false := by
                cases js with
                | nil => exact absurd rfl hjne
                | cons _ _ => rfl
              refine ⟨Joint.mk ⟨w_n⟩ o cs (.Joints js), ?_, ?_, ?_⟩
              · rw [parse_joint, hn3]
                simp only [findRule_cons, rule_mk, eq_self_iff_true, if_true,
                  ite_true]
                rw [if_pos hOr]
                simp only [hoffB]
                simp only [show findRule Rule.channels (chs :: children) =
                    some (chs, children) from by rw [findRule_cons, if_pos hCr]]
                rw [show List.filter (fun p => decide (p.rule = Rule.joint))
                    children = children from
                  List.filter_eq_self.mpr (fun q hq => by simp [hrules q hq])]
                simp only [hjmap, optSequence_map_some]
                rw [if_pos hjlen]
                simp only [hchsB, str_mk_pair]
              · simp [childrenInv, childrenInvC, hemp, hjinv]
              · rw [preNames, str_data_mk,
                  show preNamesC (.Joints js) = preNamesL js from rfl]
                exact (((sublist_app_mid (preO ++ preC) ["\x7d".data]
                  hjnames).cons "\x7b".data).cons₂ w_n)
        · rw [if_neg hj] at h
          rcases h5 : matchEndSite ws4 with e | ⟨es, ws5⟩
          · simp [h5] at h
          simp only [h5] at h
          rcases h6 : expectTok "\x7d".data ws5 with e | ws6
          · simp [h6] at h
          simp only [h6] at h
          injection h with h
          injection h with hp hws
          subst hws
          subst hp
          obtain ⟨preE, hpreE, hEr, o2, hesb⟩ := matchEndSite_sound h5
          refine ⟨w_n :: "\x7b".data :: (preO ++ preC ++ preE ++ ["\x7d".data]),
            ?_, rfl, ?_⟩
          · rw [hn1, expectTok_sound h2, hpreO, hpreC, hpreE, expectTok_sound h6]
            simp
          · intro bfuel hbf
            rw [show (Pair.mk Rule.joint_body "" (namep :: off :: chs :: [es])).inner
                = namep :: off :: chs :: [es] from rfl] at hbf ⊢
            match bfuel, hbf with
            | bf + 1, hbf =>
              refine ⟨Joint.mk ⟨w_n⟩ o cs (.EndSite ⟨o2⟩), ?_, rfl, ?_⟩
              · rw [parse_joint, hn3]
                simp only [findRule_cons, rule_mk, eq_self_iff_true, if_true,
                  ite_true]
                rw [if_pos hOr]
                simp only [hoffB]
                simp only [show findRule Rule.channels (chs :: [es]) =
                    some (chs, [es]) from by rw [findRule_cons, if_pos hCr]]
                rw [show List.filter (fun p => decide (p.rule = Rule.joint)) [es]
                    = [] from by
                  rw [List.filter_cons_of_neg (by simp [hEr]), List.filter_nil]]
                simp only [List.map_nil, optSequence, List.length_nil,
                  lt_self_iff_false, if_false, hesb, hchsB, str_mk_pair]
              · rw [preNames, str_data_mk,
                  show preNamesC (.EndSite ⟨o2⟩) = [] from rfl]
                exact (List.nil_sublist _).cons₂ w_n
      · intro ws ps ws' h
        rw [matchJoints] at h
        rcases h1 : expectTok "JOINT".data ws with e | ws1
        · simp [h1] at h
        simp only [h1] at h
        rcases h2 : matchJointBody f ws1 with e | ⟨body, ws2⟩
        · simp [h2] at h
        simp only [h2] at h
        obtain ⟨preB, hpreB, hBr, hBbuild⟩ := ihb ws1 body ws2 h2
        by_cases hj : ws2.head? = some "JOINT".data
        · rw [if_pos hj] at h
          rcases h3 : matchJoints f ws2 with e | ⟨rest, ws3⟩
          · simp [h3] at h
          simp only [h3] at h
          injection h with h
          injection h with hps hws
          subst hws
          obtain ⟨preR, hpreR, hRne, hRrules, hRbuild⟩ := ihj ws2 rest _ h3
          refine ⟨"JOINT".data :: (preB ++ preR), ?_, ?_, ?_, ?_⟩
          · rw [expectTok_sound h1, hpreB, hpreR]
            simp
          · rw [← hps]
            simp
          · intro q hq
            rw [← hps] at hq
            rcases List.mem_cons.mp hq with rfl | hq
            · rfl
            · exact hRrules q hq
          · intro bfuel hw
            have hwB : pairsWeight body.inner < bfuel := by
              have := hw (Pair.mk .joint "" [body]) (by rw [← hps]; simp)
              rw [weight_mk, pairsWeight_cons, weight_eq body] at this
              rw [show pairsWeight ([] : List Pair) = 0 from rfl] at this
              omega
            obtain ⟨jb, hjb, hjbinv, hjbnames⟩ := hBbuild bfuel hwB
            obtain ⟨js, hjsne, hjsinv, hjsnames, hjsmap⟩ := hRbuild bfuel
              (fun q hq => hw q (by rw [← hps]; simp [hq]))
            refine ⟨jb :: js, by simp, ?_, ?_, ?_⟩
            · simp [childrenInvL, hjbinv, hjsinv]
            · rw [preNamesL]
              exact (List.Sublist.append hjbnames hjsnames).cons "JOINT".data
            · rw [← hps, List.map_cons]
              rw [show (Pair.mk Rule.joint "" [body]).inner = [body] from rfl]
              rw [show findRule Rule.joint_body [body] = some (body, []) from by
                rw [findRule_cons, if_pos hBr]]
              simp only [hjb, hjsmap, List.map_cons]
        · rw [if_neg hj] at h
          injection h with h
          injection h with hps hws
          subst hws
          refine ⟨"JOINT".data :: preB, ?_, ?_, ?_, ?_⟩
          · rw [expectTok_sound h1, hpreB]
            rfl
          · rw [← hps]
            simp
          · intro q hq
            rw [← hps] at hq
            rcases List.mem_cons.mp hq with rfl | hq
            · rfl
            · simp at hq
          · intro bfuel hw
            have hwB : pairsWeight body.inner < bfuel := by
              have := hw (Pair.mk .joint "" [body]) (by rw [← hps]; simp)
              rw [weight_mk, pairsWeight_cons, weight_eq body] at this
              rw [show pairsWeight ([] : List Pair) = 0 from rfl] at this
              omega
            obtain ⟨jb, hjb, hjbinv, hjbnames⟩ := hBbuild bfuel hwB
            refine ⟨[jb], by simp, ?_, ?_, ?_⟩
            · simp [childrenInvL, childrenInvL, hjbinv]
            · rw [preNamesL, preNamesL, List.append_nil]
              exact hjbnames.cons "JOINT".data
            · rw [← hps, List.map_cons, List.map_nil]
              rw [show (Pair.mk Rule.joint "" [body]).inner = [body] from rfl]
              rw [show findRule Rule.joint_body [body] = some (body, []) from by
                rw [findRule_cons, if_pos hBr]]
              simp only [hjb, List.map_cons, List.map_nil]

theorem matchFloatStar_sound : ∀ (ws : List W) (fs : List Pair) (rest : List W),
    matchFloatStar ws = (fs, rest) →
    ∃ pre, ws = pre ++ rest ∧
      ∀ q ∈ fs, q.rule = Rule.float ∧ (decOfChars q.str.data).isSome = true := by
  intro ws
  induction ws with
  | nil =>
    intro fs rest h
    rw [matchFloatStar] at h
    injection h with h1 h2
    exact ⟨[], by rw [← h2]; rfl, by rw [← h1]; simp⟩
  | cons w ws ih =>
    intro fs rest h
    rw [matchFloatStar] at h
    by_cases hw : floatWord w = true
    · rw [if_pos hw] at h
      rcases hm : matchFloatStar ws with ⟨ps, rest2⟩
      simp only [hm] at h
      injection h with h1 h2
      obtain ⟨pre, hpre, hall⟩ := ih ps rest2 hm
      subst h2
      refine ⟨w :: pre, by rw [hpre]; rfl, ?_⟩
      intro q hq
      rw [← h1] at hq
      rcases List.mem_cons.mp hq with rfl | hq
      · refine ⟨rfl, ?_⟩
        rw [str_mk_pair, str_data_mk]
        exact hw
      · exact hall q hq
    · rw [if_neg hw] at h
      injection h with h1 h2
      exact ⟨[], by rw [← h2]; rfl, by rw [← h1]; simp⟩

theorem matchMotion_sound : ∀ {ws : List W} {p : Pair} {ws' : List W},
    matchMotion ws = .ok (p, ws') →
    ∃ (pre : List W) (iw fw : W) (fs : List Pair), ws = pre ++ ws' ∧
      p = Pair.mk .motion "" [Pair.mk .frames ""
        (Pair.mk .integer ⟨iw⟩ [] :: Pair.mk .float ⟨fw⟩ [] :: fs)] ∧
      intWord iw = true ∧ floatWord fw = true ∧
      ∀ q ∈ fs, q.rule = Rule.float ∧ (decOfChars q.str.data).isSome = true := by
  intro ws p ws' h
  rw [matchMotion] at h
  rcases he1 : expectTok "MOTION".data ws with e | ws1
  · simp [he1] at h
  simp only [he1] at h
  rcases he2 : expectTok "Frames:".data ws1 with e | ws2
  · simp [he2] at h
  simp only [he2] at h
  rcases h1 : matchInteger ws2 with e | ⟨ip, ws3⟩
  · simp [h1] at h
  simp only [h1] at h
  rcases he3 : expectTok "Frame".data ws3 with e | ws4
  · simp [he3] at h
  simp only [he3] at h
  rcases he4 : expectTok "Time:".data ws4 with e | ws5
  · simp [he4] at h
  simp only [he4] at h
  rcases h2 : matchFloat ws5 with e | ⟨ftp, ws6⟩
  · simp [h2] at h
  simp only [h2] at h
  rcases hms : matchFloatStar ws6 with ⟨fs0, rest0⟩
  simp only [hms] at h
  injection h with h
  injection h with hp hws
  subst hws
  obtain ⟨iw, hiw1, hiw2, hiw3⟩ := matchLeaf_sound h1
  obtain ⟨fw, hfw1, hfw2, hfw3⟩ := matchLeaf_sound h2
  obtain ⟨preF, hpreF, hallF⟩ := matchFloatStar_sound ws6 fs0 rest0 hms
  refine ⟨"MOTION".data :: "Frames:".data :: iw :: "Frame".data ::
    "Time:".data :: fw :: preF, iw, fw, fs0, ?_, ?_, hiw2, hfw2, hallF⟩
  · rw [expectTok_sound he1, expectTok_sound he2, hiw1, expectTok_sound he3,
      expectTok_sound he4, hfw1, hpreF]
    rfl
  · rw [← hp, hiw3, hfw3]

theorem matchHierarchy_sound : ∀ {fuel : Nat} {ws : List W} {p : Pair}
    {ws' : List W}, matchHierarchy fuel ws = .ok (p, ws') →
    ∃ pre body, ws = pre ++ ws' ∧
      p = Pair.mk .hierarchy "" [Pair.mk .root_joint "" [body]] ∧
      body.rule = Rule.joint_body ∧
      ∀ bfuel : Nat, pairsWeight body.inner < bfuel →
        ∃ j, parse_joint bfuel body.inner = some j ∧ childrenInv j = true ∧
          (preNames j).Sublist pre := by
  intro fuel ws p ws' h
  rw [matchHierarchy] at h
  rcases he1 : expectTok "HIERARCHY".data ws with e | ws1
  · simp [he1] at h
  simp only [he1] at h
  rcases he2 : expectTok "ROOT".data ws1 with e | ws2
  · simp [he2] at h
  simp only [he2] at h
  rcases hb : matchJointBody fuel ws2 with e | ⟨body, ws3⟩
  · simp [hb] at h
  simp only [hb] at h
  injection h with h
  injection h with hp hws
  subst hws
  obtain ⟨preB, hpreB, hBr, hBbuild⟩ := (match_sound fuel).1 ws2 body ws3 hb
  refine ⟨"HIERARCHY".data :: "ROOT".data :: preB, body, ?_, by rw [← hp], hBr, ?_⟩
  · rw [expectTok_sound he1, expectTok_sound he2, hpreB]
    rfl
  · intro bfuel hbf
    obtain ⟨j, hj1, hj2, hj3⟩ := hBbuild bfuel hbf
    exact ⟨j, hj1, hj2, (hj3.cons "ROOT".data).cons "HIERARCHY".data⟩

/-- Whatever text tokenizes successfully: the forest has the fixed
`bvh(hierarchy(root_joint(joint_body)), motion(frames(integer, float,
float*)))` shape; the builder succeeds on it exactly when the frame count
fits `u32`; and any built value satisfies the children invariant, has its
joint names in document order, and carries the motion block read off the
leaf tokens — with no validation tying `frame_data` to
`num_frames * total_channels`. -/
theorem tokenize_builds : ∀ (s : String) (forest : List Pair),
    tokenize s = .ok forest →
    ∃ (body : Pair) (iw fw : W) (fs : List Pair),
      forest = [Pair.mk .bvh "" [Pair.mk .hierarchy "" [Pair.mk .root_joint "" [body]],
        Pair.mk .motion "" [Pair.mk .frames ""
          (Pair.mk .integer ⟨iw⟩ [] :: Pair.mk .float ⟨fw⟩ [] :: fs)]]] ∧
      intWord iw = true ∧ (∀ q ∈ fs, q.rule = Rule.float) ∧
      (natOfChars iw < 2 ^ 32 → ∃ b, buildBvh forest = some b) ∧
      (∀ b, buildBvh forest = some b →
        childrenInv b.hierarchy.root = true ∧
        (preNames b.hierarchy.root).Sublist (splitWs s.data) ∧
        b.motion.num_frames = natOfChars iw ∧
        decOfChars fw = some b.motion.frame_time ∧
        fs.map (fun q => decOfChars q.str.data) = b.motion.frame_data.map some) := by
  intro s forest h
  rw [tokenize, matchBvh] at h
  rcases hh : matchHierarchy ((splitWs s.data).length + 1) (splitWs s.data) with
    e | ⟨hp, ws1⟩
  · simp [hh] at h
  simp only [hh] at h
  rcases hm : matchMotion ws1 with e | ⟨mp, ws2⟩
  · simp [hm] at h
  simp only [hm] at h
  match ws2, h with
  | [], h =>
    injection h with hfor
    obtain ⟨preH, body, hpreH, hhp, hBr, hBbuild⟩ := matchHierarchy_sound hh
    obtain ⟨preM, iw, fw, fs, hpreM, hmp, hiw, hfw, hallF⟩ := matchMotion_sound hm
    subst hhp
    subst hmp
    rw [← hfor]
    refine ⟨body, iw, fw, fs, rfl, hiw, fun q hq => (hallF q hq).1, ?_⟩
    have hwords : splitWs s.data = preH ++ preM := by
      rw [hpreH, hpreM, List.append_nil]
    have hwt : pairsWeight body.inner <
        pairsWeight [Pair.mk Rule.bvh ""
          [Pair.mk .hierarchy "" [Pair.mk .root_joint "" [body]],
           Pair.mk .motion "" [Pair.mk .frames ""
             (Pair.mk .integer ⟨iw⟩ [] :: Pair.mk .float ⟨fw⟩ [] :: fs)]]] + 1 := by
      simp only [pairsWeight_cons, weight_mk, weight_eq body,
        show pairsWeight ([] : List Pair) = 0 from rfl]
      omega
    obtain ⟨j, hj1, hj2, hj3⟩ := hBbuild _ hwt
    obtain ⟨ftd, hftd⟩ := Option.isSome_iff_exists.mp
      (by rw [floatWord] at hfw; exact hfw)
    obtain ⟨ds, hds⟩ := map_isSome_exists fs (fun q hq => (hallF q hq).2)
    have hiw' : iw ≠ [] ∧ iw.all isDigitCh = true := by
      rw [intWord, Bool.and_eq_true] at hiw
      refine ⟨?_, hiw.2⟩
      intro hnil
      rw [hnil] at hiw
      simp at hiw
    have hbuildEq : buildBvh [Pair.mk Rule.bvh ""
        [Pair.mk .hierarchy "" [Pair.mk .root_joint "" [body]],
         Pair.mk .motion "" [Pair.mk .frames ""
           (Pair.mk .integer ⟨iw⟩ [] :: Pair.mk .float ⟨fw⟩ [] :: fs)]]] =
        (if natOfChars iw < 2 ^ 32 then
          some ⟨⟨j⟩, ⟨natOfChars iw, ftd, ds⟩⟩ else none) := by
      rw [buildBvh]
      simp only [findRule_cons, rule_mk, eq_self_iff_true, if_true, ite_true,
        reduceCtorEq, if_false, ite_false]
      rw [show (Pair.mk Rule.bvh ""
          [Pair.mk .hierarchy "" [Pair.mk .root_joint "" [body]],
           Pair.mk .motion "" [Pair.mk .frames ""
             (Pair.mk .integer ⟨iw⟩ [] :: Pair.mk .float ⟨fw⟩ [] :: fs)]]).inner =
          [Pair.mk .hierarchy "" [Pair.mk .root_joint "" [body]],
           Pair.mk .motion "" [Pair.mk .frames ""
             (Pair.mk .integer ⟨iw⟩ [] :: Pair.mk .float ⟨fw⟩ [] :: fs)]] from rfl]
      simp only [findRule_cons, rule_mk, eq_self_iff_true, if_true, ite_true,
        reduceCtorEq, if_false, ite_false]
      simp only [show (Pair.mk Rule.hierarchy ""
          [Pair.mk .root_joint "" [body]]).inner =
          [Pair.mk .root_joint "" [body]] from rfl,
        show (Pair.mk Rule.root_joint "" [body]).inner = [body] from rfl,
        findRule_cons, rule_mk, eq_self_iff_true, if_true, ite_true]
      rw [if_pos hBr]
      simp only [hj1]
      simp only [show (Pair.mk Rule.motion "" [Pair.mk .frames ""
          (Pair.mk .integer ⟨iw⟩ [] :: Pair.mk .float ⟨fw⟩ [] :: fs)]).inner =
          [Pair.mk .frames "" (Pair.mk .integer ⟨iw⟩ [] ::
            Pair.mk .float ⟨fw⟩ [] :: fs)] from rfl,
        show (Pair.mk Rule.frames "" (Pair.mk .integer ⟨iw⟩ [] ::
            Pair.mk .float ⟨fw⟩ [] :: fs)).inner =
          Pair.mk .integer ⟨iw⟩ [] :: Pair.mk .float ⟨fw⟩ [] :: fs from rfl,
        findRule_cons, rule_mk, eq_self_iff_true, if_true, ite_true]
      rw [parseU32, str_data_mk]
      by_cases hlt : natOfChars iw < 2 ^ 32
      · rw [if_pos ⟨hiw'.1, hiw'.2, hlt⟩, if_pos hlt]
        rw [parse_f64]
        simp only [findRule_cons, rule_mk, eq_self_iff_true, if_true,
          ite_true, str_mk_pair, str_data_mk, hftd]
        rw [List.filter_eq_self.mpr (fun q hq => by
          simp [(hallF q hq).1])]
        rw [hds, optSequence_map_some]
      · rw [if_neg (by
          intro hc
          exact hlt hc.2.2), if_neg hlt]
    constructor
    · intro hlt
      rw [hbuildEq, if_pos hlt]
      exact ⟨_, rfl⟩
    · intro b hb
      rw [hbuildEq] at hb
      by_cases hlt : natOfChars iw < 2 ^ 32
      · rw [if_pos hlt] at hb
        injection hb with hb
        subst hb
        refine ⟨hj2, ?_, rfl, by rw [hftd], by rw [hds]⟩
        rw [hwords]
        exact hj3.trans (List.sublist_append_left preH preM)
      · rw [if_neg hlt] at hb
        exact absurd hb (by simp)

/-! ## Rejection of malformed documents -/

theorem matchChannelN_over : ∀ (k : Nat) (cs rest : List W),
    cs.length < k → (∀ c ∈ cs, channelWord c = true) →
    (∀ w, rest.head? = some w → channelWord w = false) →
    ∃ e, matchChannelN k (cs ++ rest) = .error e := by
  intro k
  induction k with
  | zero =>
    intro cs rest h _ _
    omega
  | succ k ih =>
    intro cs rest hlt hcs hrest
    match cs with
    | [] =>
      rw [List.nil_append, matchChannelN]
      match rest with
      | [] => exact ⟨_, rfl⟩
      | w :: ws =>
        have hw : channelWord w = false := hrest w rfl
        rw [show matchChannel (w :: ws) = .error ("expected " ++ "channel") from by
          rw [matchChannel, matchLeaf, if_neg (by simp [hw])]]
        exact ⟨_, rfl⟩
    | c :: cs' =>
      rw [List.cons_append, matchChannelN]
      simp only [matchChannel, matchLeaf_cons _ _ _ (hcs c (by simp))]
      obtain ⟨e, he⟩ := ih cs' rest (by simp only [List.length_cons] at hlt; omega)
        (fun x hx => hcs x (by simp [hx])) hrest
      simp only [he]
      exact ⟨e, rfl⟩

theorem matchChannelN_under : ∀ (k : Nat) (cs rest : List W),
    k ≤ cs.length → (∀ c ∈ cs, channelWord c = true) →
    ∃ ps, matchChannelN k (cs ++ rest) = .ok (ps, cs.drop k ++ rest) := by
  intro k
  induction k with
  | zero =>
    intro cs rest _ _
    exact ⟨[], by rw [matchChannelN, List.drop_zero]⟩
  | succ k ih =>
    intro cs rest hle hcs
    match cs with
    | [] => simp at hle
    | c :: cs' =>
      rw [List.cons_append, matchChannelN]
      simp only [matchChannel, matchLeaf_cons _ _ _ (hcs c (by simp))]
      obtain ⟨ps, hps⟩ := ih cs' rest (by simp only [List.length_cons] at hle; omega)
        (fun x hx => hcs x (by simp [hx]))
      simp only [hps]
      exact ⟨_, by rw [List.drop_succ_cons]⟩

/-- A `CHANNELS` count disagreeing with the number of channel names that
follow it (the run of names ends at `rest`) makes the joint-body matcher
fail, whatever comes later. -/
theorem channels_mismatch_body : ∀ (fuel : Nat) (n o1 o2 o3 cw : W)
    (cs rest : List W),
    identWord n = true → floatWord o1 = true → floatWord o2 = true →
    floatWord o3 = true → intWord cw = true →
    (∀ c ∈ cs, channelWord c = true) →
    (∀ w, rest.head? = some w → channelWord w = false) →
    natOfChars cw ≠ cs.length →
    ∃ e, matchJointBody fuel (n :: "\x7b".data :: "OFFSET".data :: o1 :: o2 ::
      o3 :: "CHANNELS".data :: cw :: (cs ++ rest)) = .error e := by
  intro fuel n o1 o2 o3 cw cs rest hn ho1 ho2 ho3 hcw hcs hrest hmis
  match fuel with
  | 0 => exact ⟨_, rfl⟩
  | f + 1 =>
    rw [matchJointBody]
    simp only [matchIdent, matchLeaf_cons _ _ _ hn, expectTok_cons]
    rw [matchOffsetBlock]
    simp only [expectTok_cons, matchFloat, matchLeaf_cons _ _ _ ho1,
      matchLeaf_cons _ _ _ ho2, matchLeaf_cons _ _ _ ho3]
    rw [matchChannelsBlock]
    simp only [expectTok_cons, matchInteger, matchLeaf_cons _ _ _ hcw,
      str_mk_pair, str_data_mk]
    by_cases hle : natOfChars cw ≤ cs.length
    · have hlt : natOfChars cw < cs.length := lt_of_le_of_ne hle hmis
      obtain ⟨ps, hps⟩ := matchChannelN_under (natOfChars cw) cs rest hle hcs
      simp only [hps]
      obtain ⟨c, cs2, hd⟩ : ∃ c cs2, cs.drop (natOfChars cw) = c :: cs2 := by
        cases hd : cs.drop (natOfChars cw) with
        | nil =>
          have := congrArg List.length hd
          rw [List.length_drop] at this
          simp at this
          omega
        | cons c cs2 => exact ⟨c, cs2, rfl⟩
      have hc : channelWord c = true :=
        hcs c ((List.drop_sublist (natOfChars cw) cs).subset (by rw [hd]; simp))
      rw [hd, List.cons_append]
      have hcJ : ¬ ((c :: (cs2 ++ rest)).head? = some "JOINT".data) := by
        intro hh
        simp only [List.head?_cons, Option.some.injEq] at hh
        rw [hh] at hc
        exact absurd hc (by decide)
      rw [if_neg hcJ]
      have hcE : c ≠ "End".data := by
        intro hh
        rw [hh] at hc
        exact absurd hc (by decide)
      rw [matchEndSite]
      rw [show expectTok "End".data (c :: (cs2 ++ rest)) =
          .error ("expected " ++ (⟨"End".data⟩ : String)) from by
        rw [expectTok, if_neg hcE]]
      exact ⟨_, rfl⟩
    · have hgt : cs.length < natOfChars cw := by omega
      obtain ⟨e, he⟩ := matchChannelN_over (natOfChars cw) cs rest hgt hcs hrest
      simp only [he]
      exact ⟨_, rfl⟩

/-! ## The claims -/

/-- C1 (amended): for every `Bvh` value satisfying the data-model
invariants read against the program's own `u32` `total_channels`
(identifier names, non-empty `Joints` variants, `num_frames` within `u32`,
`frame_data.length = num_frames * total_channels(root)`), serializing and
re-parsing yields exactly the original value (scalars are finite decimal
values — the model of `f64` — compared by value, which the exact-decimal
model renders as equality). -/
theorem claim_C1_round_trip (V : Bvh) (h : wellFormed V = true) :
    ∃ s : String, serializeStr V = some s ∧ parse s = PResult.ok V :=
  ⟨_, (parse_serialize V h).1, (parse_serialize V h).2⟩

/-- C1, witnessed on the spec's minimal document value. -/
theorem claim_C1_round_trip_witness :
    wellFormed minimalBvh = true ∧
      ∃ s : String, serializeStr minimalBvh = some s ∧
        parse s = PResult.ok minimalBvh :=
  ⟨by decide, claim_C1_round_trip minimalBvh (by decide)⟩

/-- C1, counterexample to the round trip over the *ideal* reading of the
data-model invariants: `wideBvh` has identifier names, a valid child
variant, one frame, and frame-data length equal to `num_frames` times the
ideal depth-first channel count (`2 ^ 32`) — yet the program's
`total_channels` truncates to `0` (`len() as u32`), `serialize_motion`
panics on `% 0` at the first value, and serialization never produces text
to parse back. -/
theorem claim_C1_counterexample :
    jointWF wideBvh.hierarchy.root = true ∧
    wideBvh.motion.num_frames < 2 ^ 32 ∧
    wideBvh.motion.frame_data.length =
      wideBvh.motion.num_frames *
        ((Joint.dfs wideBvh.hierarchy.root).map
          (fun x => x.channels.length)).sum ∧
    serializeStr wideBvh = none := by
  refine ⟨?_, by decide, ?_, wideBvh_crash⟩
  · rw [show wideBvh.hierarchy.root = wideJoint from rfl, wideJoint,
      jointWF]
    rw [show childWF (JointChildren.EndSite ⟨⟨⟨0, 0⟩, ⟨0, 0⟩, ⟨0, 0⟩⟩⟩) = true
      from rfl]
    simp [identWord, isIdentCh]
  · rw [show wideBvh.hierarchy.root = wideJoint from rfl, wideJoint_sum,
      show wideBvh.motion.num_frames = 1 from rfl,
      show wideBvh.motion.frame_data =
        List.replicate (2 ^ 32) (⟨0, 0⟩ : Dec) from rfl,
      List.length_replicate, Nat.one_mul]

/-- C2 (amended): internal-consistency failures inside the builder are
crashes, not recoverable error values.  (a) A `joint_body` forest with
neither a nested `joint` pair nor an `end_site` pair makes `parse_joint`
panic (`none`); (b) whenever tokenization succeeds but the tree builder
fails, `parse` crashes instead of returning an error. -/
theorem claim_C2_internal_failures_crash :
    (∀ (fuel : Nat) (ps : List Pair),
        ps.filter (fun p => p.rule = Rule.joint) = [] →
        findRule .end_site ps = none →
        parse_joint fuel ps = none) ∧
    (∀ (s : String) (forest : List Pair), tokenize s = .ok forest →
        buildBvh forest = none → parse s = PResult.crash) :=
  ⟨parse_joint_no_children, parse_crash_of_build_none⟩

/-- C2, witnessed: a body with name, offset and channels but no children
pairs of either kind, and the overflow document (whose builder fails on the
`u32` conversion) crashing `parse`. -/
theorem claim_C2_internal_failures_crash_witness :
    ([Pair.mk .identifier "A" [], offsetPair ⟨⟨0, 0⟩, ⟨0, 0⟩, ⟨0, 0⟩⟩,
        channelsPair []].filter (fun p => p.rule = Rule.joint) = [] ∧
      findRule .end_site [Pair.mk .identifier "A" [],
        offsetPair ⟨⟨0, 0⟩, ⟨0, 0⟩, ⟨0, 0⟩⟩, channelsPair []] = none ∧
      parse_joint 1 [Pair.mk .identifier "A" [],
        offsetPair ⟨⟨0, 0⟩, ⟨0, 0⟩, ⟨0, 0⟩⟩, channelsPair []] = none) ∧
    (tokenize overflowDoc = .ok overflowForest ∧
      buildBvh overflowForest = none ∧ parse overflowDoc = PResult.crash) :=
  ⟨⟨rfl, rfl, claim_C2_internal_failures_crash.1 1 _ rfl rfl⟩,
   ⟨rfl, rfl, claim_C2_internal_failures_crash.2 overflowDoc overflowForest rfl rfl⟩⟩

/-- C2, counterexample to the original claim: on a document whose `Frames:`
count does not fit in `u32`, the grammar-guaranteed numeric conversion fails
and `parse` crashes — the internal-consistency condition is not surfaced as
a recoverable error value. -/
theorem claim_C2_counterexample : parse overflowDoc = PResult.crash := rfl

/-- C4 (amended): `total_channels` computes in `u32`, so it equals the
depth-first sum of the joints' own channel-list lengths reduced modulo
`2 ^ 32` — and equals that sum exactly whenever the sum fits in `u32`; an
`EndSite` child contributes zero. -/
theorem claim_C4_channel_count_identity :
    (∀ j : Joint, j.total_channels =
      ((Joint.dfs j).map (fun x => x.channels.length)).sum % 2 ^ 32) ∧
    (∀ j : Joint,
      ((Joint.dfs j).map (fun x => x.channels.length)).sum < 2 ^ 32 →
      j.total_channels = ((Joint.dfs j).map (fun x => x.channels.length)).sum) ∧
    (∀ e : EndSite, (JointChildren.EndSite e).total_channels = 0) :=
  ⟨total_eq_dfs_joint,
   fun j h => by rw [total_eq_dfs_joint j, Nat.mod_eq_of_lt h],
   fun _ => rfl⟩

/-- C4, witnessed on the minimal value's root (three channels, well below
`2 ^ 32`). -/
theorem claim_C4_channel_count_identity_witness :
    ((Joint.dfs minimalBvh.hierarchy.root).map
      (fun x => x.channels.length)).sum < 2 ^ 32 ∧
    minimalBvh.hierarchy.root.total_channels =
      ((Joint.dfs minimalBvh.hierarchy.root).map
        (fun x => x.channels.length)).sum :=
  ⟨by decide,
   claim_C4_channel_count_identity.2.1 minimalBvh.hierarchy.root (by decide)⟩

/-- C4, counterexample to the unbounded identity: a joint with exactly
`2 ^ 32` channels — `channels.len() as u32` truncates to `0`, so the
program's `total_channels` returns `0` while the depth-first channel count
is `2 ^ 32`. -/
theorem claim_C4_counterexample :
    wideJoint.total_channels = 0 ∧
    ((Joint.dfs wideJoint).map (fun x => x.channels.length)).sum = 2 ^ 32 :=
  ⟨wideJoint_total, wideJoint_sum⟩

/-- C7: the spec's minimal document parses to exactly the required value:
root named `Hips`, the three position channels, an `End Site` child with
offset `(0,0,1)`, one frame of data `0 0 0`. -/
theorem claim_C7_minimal_document :
    parse minimalDoc = PResult.ok minimalBvh ∧
      minimalBvh.hierarchy.root.name = "Hips" ∧
      minimalBvh.hierarchy.root.channels =
        [.XPosition, .YPosition, .ZPosition] ∧
      minimalBvh.hierarchy.root.children =
        .EndSite ⟨⟨⟨0, 0⟩, ⟨0, 0⟩, ⟨1, 0⟩⟩⟩ ∧
      minimalBvh.motion.num_frames = 1 ∧
      minimalBvh.motion.frame_data = [⟨0, 0⟩, ⟨0, 0⟩, ⟨0, 0⟩] :=
  ⟨rfl, rfl, rfl, rfl, rfl, rfl⟩

/-- C8 (amended): when `frame_data` is a positive multiple `k` of a
positive `total_channels(root)` and holds at most `2 ^ 32` values (so the
`(index as u32)` cast of the loop index is the identity), the serialized
text is the hierarchy followed by the motion headers followed by the rows
obtained by slicing `frame_data` into consecutive chunks of width
`total_channels(root)`, each row space-separated and newline-terminated. -/
theorem claim_C8_row_slicing (b : Bvh) (k : Nat)
    (hC : 0 < b.hierarchy.root.total_channels) (hk : 0 < k)
    (hbound : b.motion.frame_data.length ≤ 2 ^ 32)
    (hlen : b.motion.frame_data.length = k * b.hierarchy.root.total_channels) :
    outChars (serialize b) =
      outChars (serialize_hierarchy b.hierarchy) ++
        ("MOTION\n" ++ ("Frames: " ++ fmtNat b.motion.num_frames ++ "\n") ++
          ("Frame Time: " ++ fmtDec b.motion.frame_time ++ "\n")).data ++
        ((chunksOf b.hierarchy.root.total_channels b.motion.frame_data).map
          rowChars).flatten := by
  have hnc : (motion_rows b.hierarchy.root.total_channels 0
      b.motion.frame_data).crashed = false :=
    motion_rows_crashed (Or.inl (by omega)) 0
  rw [serialize, outChars_append _ (serialize_hierarchy_crashed _),
    List.append_assoc]
  congr 1
  rw [serialize_motion]
  simp only [outChars_append, seq_crashed, wr_crashed, hnc, Bool.or_self,
    Bool.or_false, Bool.false_or, outChars_wr]
  rw [rows_chunks k b.motion.frame_data _ 0 hC (Nat.zero_mod _)
    (by omega) hlen]
  simp [String.data_append, List.append_assoc]

/-- C8, witnessed on the minimal value (one row of three channels). -/
theorem claim_C8_row_slicing_witness :
    (0 < minimalBvh.hierarchy.root.total_channels ∧ 0 < 1 ∧
      minimalBvh.motion.frame_data.length ≤ 2 ^ 32 ∧
      minimalBvh.motion.frame_data.length =
        1 * minimalBvh.hierarchy.root.total_channels) ∧
    outChars (serialize minimalBvh) =
      outChars (serialize_hierarchy minimalBvh.hierarchy) ++
        ("MOTION\n" ++
          ("Frames: " ++ fmtNat minimalBvh.motion.num_frames ++ "\n") ++
          ("Frame Time: " ++ fmtDec minimalBvh.motion.frame_time ++ "\n")).data ++
        ((chunksOf minimalBvh.hierarchy.root.total_channels
          minimalBvh.motion.frame_data).map rowChars).flatten :=
  ⟨⟨by decide, by decide, by decide, by decide⟩,
   claim_C8_row_slicing minimalBvh 1 (by decide) (by decide) (by decide)
     (by decide)⟩

/-- C8, counterexample to the unbounded slicing claim: at loop index
`2 ^ 32 + 1` with three channels per row, the index sits at the end of a
width-3 row (`(2 ^ 32 + 1) % 3 = 2`), where the slicing places a newline —
but the program tests the `u32`-truncated index (`1 % 3 = 1`) and writes a
space instead. -/
theorem claim_C8_counterexample :
    (2 ^ 32 + 1) % 3 = 3 - 1 ∧
    ¬ ((2 ^ 32 + 1) % 2 ^ 32 % 3 = 3 - 1) ∧
    ∀ (v : Dec) (vs : List Dec),
      motion_rows 3 (2 ^ 32 + 1) (v :: vs) =
        wr (fmtDec v) ++ (wr " " ++ motion_rows 3 (2 ^ 32 + 1 + 1) vs) := by
  refine ⟨by decide, by decide, ?_⟩
  intro v vs
  rw [motion_rows_cons, if_neg (by norm_num : ¬ (3 : Nat) = 0),
    if_pos (by decide : (2 ^ 32 + 1) % 2 ^ 32 % 3 ≠ 3 - 1)]

/-- C10: the emitted motion rows depend only on `frame_data` and
`total_channels(root)` — `num_frames` appears only inside the `Frames:`
header chunk; and with empty `frame_data` serialization emits exactly the
three headers and succeeds, even with a positive `num_frames` or zero
channels. -/
theorem claim_C10_rows_independent_of_num_frames :
    (∀ (nf : Nat) (ft : Dec) (d : List Dec) (C : Nat),
      (serialize_motion ⟨nf, ft, d⟩ C).chunks =
        "MOTION\n" :: ("Frames: " ++ fmtNat nf ++ "\n") ::
          ("Frame Time: " ++ fmtDec ft ++ "\n") :: (motion_rows C 0 d).chunks ∧
      (serialize_motion ⟨nf, ft, d⟩ C).crashed = (motion_rows C 0 d).crashed) ∧
    (∀ b : Bvh, b.motion.frame_data = [] →
      serializeStr b = some ⟨outChars (serialize_hierarchy b.hierarchy) ++
        ("MOTION\n" ++ ("Frames: " ++ fmtNat b.motion.num_frames ++ "\n") ++
          ("Frame Time: " ++ fmtDec b.motion.frame_time ++ "\n")).data⟩) := by
  constructor
  · intro nf ft d C
    exact ⟨rfl, rfl⟩
  · intro b hd
    have hcr : (serialize b).crashed = false := by
      rw [serialize_crashed, hd, motion_rows_nil]
      rfl
    rw [serializeStr, hcr]
    simp only [Bool.false_eq_true, if_false]
    congr 1
    rw [serialize, outChars_append _ (serialize_hierarchy_crashed _)]
    congr 1
    rw [serialize_motion, hd, motion_rows_nil]
    simp only [outChars_append, seq_crashed, wr_crashed, wnil_crashed,
      Bool.or_self, Bool.or_false, Bool.false_or, outChars_wr, outChars_wnil,
      List.append_nil]
    simp [String.data_append, List.append_assoc]

/-- C10, witnessed on a value with five frames declared, zero channels and
no frame data: serialization still succeeds, with headers only. -/
theorem claim_C10_rows_independent_of_num_frames_witness :
    headersOnlyBvh.motion.frame_data = [] ∧
      serializeStr headersOnlyBvh =
        some ⟨outChars (serialize_hierarchy headersOnlyBvh.hierarchy) ++
          ("MOTION\n" ++
            ("Frames: " ++ fmtNat headersOnlyBvh.motion.num_frames ++ "\n") ++
            ("Frame Time: " ++ fmtDec headersOnlyBvh.motion.frame_time ++
              "\n")).data⟩ :=
  ⟨rfl, claim_C10_rows_independent_of_num_frames.2 headersOnlyBvh rfl⟩

/-- C5 (amended): on any text that tokenizes, the forest has the fixed
shape whose `frames` block is one integer token, one float token, then the
remaining float tokens in document order; whenever `parse` returns a value,
`num_frames` is the first integer token's value, `frame_time` the first
float's, and `frame_data` the values of the remaining float tokens, flat
and in order; no relation between `frame_data.length` and
`num_frames * total_channels` is checked — but `parse` succeeds only when
the frame count also fits in `u32` (otherwise it crashes). -/
theorem claim_C5_motion_extraction (s : String) (forest : List Pair)
    (h : tokenize s = .ok forest) :
    ∃ (body : Pair) (iw fw : W) (fs : List Pair),
      forest = [Pair.mk .bvh "" [Pair.mk .hierarchy "" [Pair.mk .root_joint "" [body]],
        Pair.mk .motion "" [Pair.mk .frames ""
          (Pair.mk .integer ⟨iw⟩ [] :: Pair.mk .float ⟨fw⟩ [] :: fs)]]] ∧
      (∀ q ∈ fs, q.rule = Rule.float) ∧
      (natOfChars iw < 2 ^ 32 → ∃ b, parse s = PResult.ok b) ∧
      (∀ b, parse s = PResult.ok b →
        b.motion.num_frames = natOfChars iw ∧
        decOfChars fw = some b.motion.frame_time ∧
        fs.map (fun q => decOfChars q.str.data) = b.motion.frame_data.map some) := by
  obtain ⟨body, iw, fw, fs, hshape, hiw, hrules, hsucc, hprops⟩ :=
    tokenize_builds s forest h
  refine ⟨body, iw, fw, fs, hshape, hrules, ?_, ?_⟩
  · intro hlt
    obtain ⟨b, hb⟩ := hsucc hlt
    refine ⟨b, ?_⟩
    rw [parse]
    simp only [h, hb]
  · intro b hpb
    have hb : buildBvh forest = some b := by
      rw [parse] at hpb
      simp only [h] at hpb
      rcases hbb : buildBvh forest with _ | b'
      · simp only [hbb] at hpb
        exact absurd hpb (by simp)
      · simp only [hbb, PResult.ok.injEq] at hpb
        exact congrArg some hpb
    obtain ⟨-, -, h3, h4, h5⟩ := hprops b hb
    exact ⟨h3, h4, h5⟩

/-- C5, witnessed on a document whose frame-data length (3) disagrees with
`num_frames * total_channels` (6): tokenization and the whole extraction go
through, and `parse` succeeds despite the mismatch. -/
theorem claim_C5_motion_extraction_witness :
    tokenize mismatchDoc = .ok mismatchForest ∧
    (∃ (body : Pair) (iw fw : W) (fs : List Pair),
      mismatchForest = [Pair.mk .bvh "" [Pair.mk .hierarchy ""
          [Pair.mk .root_joint "" [body]],
        Pair.mk .motion "" [Pair.mk .frames ""
          (Pair.mk .integer ⟨iw⟩ [] :: Pair.mk .float ⟨fw⟩ [] :: fs)]]] ∧
      (∀ q ∈ fs, q.rule = Rule.float) ∧
      (natOfChars iw < 2 ^ 32 → ∃ b, parse mismatchDoc = PResult.ok b) ∧
      (∀ b, parse mismatchDoc = PResult.ok b →
        b.motion.num_frames = natOfChars iw ∧
        decOfChars fw = some b.motion.frame_time ∧
        fs.map (fun q => decOfChars q.str.data) = b.motion.frame_data.map some)) ∧
    parse mismatchDoc = PResult.ok mismatchBvh ∧
    mismatchBvh.motion.frame_data.length ≠
      mismatchBvh.motion.num_frames * mismatchBvh.hierarchy.root.total_channels :=
  ⟨rfl, claim_C5_motion_extraction mismatchDoc mismatchForest rfl, rfl, by decide⟩

/-- C5, counterexample to the original claim's unconditional success: this
document tokenizes, yet `parse` crashes (the `u32` conversion of its frame
count panics). -/
theorem claim_C5_counterexample :
    tokenize overflowDoc2 = .ok overflowForest2 ∧
      parse overflowDoc2 = PResult.crash :=
  ⟨rfl, rfl⟩

/-- C6: a document with no `MOTION` token anywhere is rejected with a
syntax error; and a document whose root `CHANNELS` count disagrees with
the number of channel names that follow it is rejected with a syntax
error — in both cases `parse` returns an error, never a (partial) value. -/
theorem claim_C6_malformed_rejection :
    (∀ s : String, "MOTION".data ∉ splitWs s.data →
      ∃ msg, parse s = PResult.syntaxErr msg) ∧
    (∀ (s : String) (n o1 o2 o3 cw : W) (cs rest : List W),
      splitWs s.data = "HIERARCHY".data :: "ROOT".data :: n :: "\x7b".data ::
        "OFFSET".data :: o1 :: o2 :: o3 :: "CHANNELS".data :: cw :: (cs ++ rest) →
      identWord n = true → floatWord o1 = true → floatWord o2 = true →
      floatWord o3 = true → intWord cw = true →
      (∀ c ∈ cs, channelWord c = true) →
      (∀ w, rest.head? = some w → channelWord w = false) →
      natOfChars cw ≠ cs.length →
      ∃ msg, parse s = PResult.syntaxErr msg) := by
  constructor
  · intro s hnm
    rcases ht : tokenize s with e | forest
    · refine ⟨"Couldn't parse BVH: " ++ e, ?_⟩
      rw [parse]
      simp only [ht]
    · exfalso
      rw [tokenize, matchBvh] at ht
      rcases hh : matchHierarchy ((splitWs s.data).length + 1) (splitWs s.data)
        with e | ⟨hp, ws1⟩
      · simp [hh] at ht
      simp only [hh] at ht
      rcases hm : matchMotion ws1 with e | ⟨mp, ws2⟩
      · simp [hm] at ht
      rw [matchMotion] at hm
      rcases he : expectTok "MOTION".data ws1 with e | ws1'
      · simp [he] at hm
      obtain ⟨preH, body, hpreH, -, -, -⟩ := matchHierarchy_sound hh
      apply hnm
      rw [hpreH, expectTok_sound he]
      simp
  · intro s n o1 o2 o3 cw cs rest hsplit hn ho1 ho2 ho3 hcw hcs hrest hmis
    rcases ht : tokenize s with e | forest
    · refine ⟨"Couldn't parse BVH: " ++ e, ?_⟩
      rw [parse]
      simp only [ht]
    · exfalso
      rw [tokenize] at ht
      set F := (splitWs s.data).length + 1 with hF
      rw [matchBvh, matchHierarchy, hsplit] at ht
      simp only [expectTok_cons] at ht
      obtain ⟨e, he⟩ := channels_mismatch_body F
        n o1 o2 o3 cw cs rest hn ho1 ho2 ho3 hcw hcs hrest hmis
      simp [he] at ht

/-- C6, witnessed on a document missing its `MOTION` section and on one
whose `CHANNELS` count is 2 with three names listed. -/
theorem claim_C6_malformed_rejection_witness :
    ("MOTION".data ∉ splitWs noMotionDoc.data ∧
      ∃ msg, parse noMotionDoc = PResult.syntaxErr msg) ∧
    (natOfChars "2".data ≠
      (["Xposition".data, "Yposition".data, "Zposition".data] : List W).length ∧
      ∃ msg, parse chanMismatchDoc = PResult.syntaxErr msg) :=
  ⟨⟨by decide, claim_C6_malformed_rejection.1 noMotionDoc (by decide)⟩,
   ⟨by decide, claim_C6_malformed_rejection.2 chanMismatchDoc "Hips".data
      "0".data "0".data "0".data "2".data
      ["Xposition".data, "Yposition".data, "Zposition".data]
      ["End".data, "Site".data, "\x7b".data, "OFFSET".data, "0".data,
        "0".data, "1".data, "\x7d".data, "\x7d".data, "MOTION".data,
        "Frames:".data, "1".data, "Frame".data, "Time:".data,
        "0.0333333".data, "0".data, "0".data, "0".data]
      (by decide) (by decide) (by decide) (by decide) (by decide) (by decide)
      (by decide) (by decide) (by decide)⟩⟩

/-- C9: every value `parse` returns satisfies the `JointChildren`
invariant at every joint — `Joints` with a non-empty child list or
`EndSite`, never neither — and the pre-order sequence of joint names is a
sublist of the document's tokens in order: children appear in document
order, recursively at every depth. -/
theorem claim_C9_children_invariant (s : String) (b : Bvh)
    (h : parse s = PResult.ok b) :
    childrenInv b.hierarchy.root = true ∧
      (preNames b.hierarchy.root).Sublist (splitWs s.data) := by
  rcases ht : tokenize s with e | forest
  · rw [parse] at h
    simp only [ht] at h
    exact absurd h (by simp)
  · rw [parse] at h
    simp only [ht] at h
    rcases hb : buildBvh forest with _ | b'
    · simp only [hb] at h
      exact absurd h (by simp)
    · simp only [hb] at h
      injection h with h
      subst h
      obtain ⟨body, iw, fw, fs, hshape, hiw, hrules, hsucc, hprops⟩ :=
        tokenize_builds s forest ht
      obtain ⟨h1, h2, -, -, -⟩ := hprops b' hb
      exact ⟨h1, h2⟩

/-- C9, witnessed on a three-level hierarchy with sibling joints at two
levels: names `A, B, D, E, C` in document order. -/
theorem claim_C9_children_invariant_witness :
    parse multiDoc = PResult.ok multiBvh ∧
      (childrenInv multiBvh.hierarchy.root = true ∧
        (preNames multiBvh.hierarchy.root).Sublist (splitWs multiDoc.data)) :=
  ⟨rfl, claim_C9_children_invariant multiDoc multiBvh rfl⟩

end BvhSpec
